import Mathlib

/-!
Verification of the Mancala minimax core (src/MancalaSolver/MancalaSolver.cpp).

The board is the C++ `uint8_t position[14]`: indices 0-5 are the Player's
pits, 6 the Player's store, 7-12 the Computer's pits, 13 the Computer's
store.  We embed it as a `List Nat`; every write that the C++ performs on a
`uint8_t` cell is taken modulo 256, and the `int8_t` evaluation is wrapped
with `i8`.  Stateful C++ functions become explicit state passing: a function
that mutates the array it is handed returns the resulting board.
-/

/-- Boards are the 14 `uint8_t` counters of `position`. -/
abbrev Board := List Nat

/-- Wrap an integer to the `int8_t` range, as the C++ conversion on
`return Evaluation(position)` does. -/
def i8 (z : ℤ) : ℤ := (z + 128) % 256 - 128

/-- `uint8_t` decrement, as in `depth - 1` on an unsigned 8-bit value:
`0 - 1` wraps to `255`. -/
def u8sub1 (d : ℕ) : ℕ := (d + 255) % 256

/-- The `Evaluation(position)` macro: `position[13] - position[6]`,
truncated to `int8_t` by the callers' return type. -/
def Evaluation (b : Board) : ℤ := i8 ((b.getD 13 0 : ℤ) - (b.getD 6 0 : ℤ))

/-- The `PlayerEmpty` macro: all of cells 0-5 are zero (the 6-byte mask). -/
def playerEmpty (b : Board) : Bool :=
  b.getD 0 0 == 0 && b.getD 1 0 == 0 && b.getD 2 0 == 0 &&
  b.getD 3 0 == 0 && b.getD 4 0 == 0 && b.getD 5 0 == 0

/-- The `ComputerEmpty` macro: all of cells 7-12 are zero. -/
def computerEmpty (b : Board) : Bool :=
  b.getD 7 0 == 0 && b.getD 8 0 == 0 && b.getD 9 0 == 0 &&
  b.getD 10 0 == 0 && b.getD 11 0 == 0 && b.getD 12 0 == 0

/-- The sowing loop of `move`: distribute `count` stones starting after
`sel`, skipping the cell `skip` (the enemy store).  The C++ loop, on
hitting `skip`, re-increments `count` and deposits nothing, so its next
iteration necessarily deposits at `(skip + 1) % 14`; that step pair is
fused here into one recursive step so the recursion is structural in the
remaining stone count.  Returns the index of the last deposited stone
(`selection` after the loop) and the board. -/
def sow (skip : ℕ) : ℕ → ℕ → Board → ℕ × Board
  | 0, sel, b => (sel, b)
  | c + 1, sel, b =>
    let s1 := (sel + 1) % 14
    if s1 = skip then
      let s2 := (s1 + 1) % 14
      sow skip c s2 (b.set s2 ((b.getD s2 0 + 1) % 256))
    else
      sow skip c s1 (b.set s1 ((b.getD s1 0 + 1) % 256))

/-- `move(position, selection, player)`: empty the selected pit, sow its
stones (skipping the enemy store), then resolve extra turn / capture.
Returns whose turn it is next, and the mutated board. -/
def move (b : Board) (sel : ℕ) (player : Bool) : Bool × Board :=
  let count := b.getD sel 0
  let b0 := b.set sel 0
  let fb := sow (if player then 13 else 6) count sel b0
  let f := fb.1
  let b2 := fb.2
  if player then
    if f = 6 then (true, b2)
    else if f < 6 ∧ b2.getD f 0 = 1 ∧ 0 < b2.getD (14 - f - 2) 0 then
      let b3 := b2.set f 0
      let b4 := b3.set 6 ((b3.getD 6 0 + b3.getD (14 - f - 2) 0 + 1) % 256)
      (false, b4.set (14 - f - 2) 0)
    else (false, b2)
  else
    if f = 13 then (false, b2)
    else if 6 < f ∧ b2.getD f 0 = 1 ∧ 0 < b2.getD (14 - f - 2) 0 then
      let b3 := b2.set f 0
      let b4 := b3.set 13 ((b3.getD 13 0 + b3.getD (14 - f - 2) 0 + 1) % 256)
      (true, b4.set (14 - f - 2) 0)
    else (true, b2)

/-- The `PlayerEmpty` terminal branch of `minimax`:
`for (i = 7; i < 13; i++) position[13] += position[i]`.
Note the pits are NOT zeroed. -/
def sweepIntoComputer (b : Board) : Board :=
  [7, 8, 9, 10, 11, 12].foldl
    (fun acc i => acc.set 13 ((acc.getD 13 0 + acc.getD i 0) % 256)) b

/-- The `ComputerEmpty` terminal branch of `minimax`:
`for (i = 0; i < 6; i++) position[6] += position[i]`.
Note the pits are NOT zeroed. -/
def sweepIntoPlayer (b : Board) : Board :=
  [0, 1, 2, 3, 4, 5].foldl
    (fun acc i => acc.set 6 ((acc.getD 6 0 + acc.getD i 0) % 256)) b

/-- The minimizing (`player`) branch loop of `minimax`: for each own pit in
ascending order, skip empty pits, otherwise search the child (a fresh copy
with the move applied), keep the running minimum, break when it falls to
`alpha` or below, else tighten `beta`.  The child search is abstracted as
`f` so the loop is a plain total function. -/
def abMinLoop (f : Board → Bool → ℤ → ℤ → ℤ) (b : Board) :
    List ℕ → ℤ → ℤ → ℤ → ℤ
  | [], sr, _, _ => sr
  | i :: rest, sr, alpha, beta =>
    if b.getD i 0 = 0 then abMinLoop f b rest sr alpha beta
    else
      let mv := move b i true
      let sr2 := min sr (f mv.2 mv.1 alpha beta)
      if sr2 ≤ alpha then sr2
      else abMinLoop f b rest sr2 alpha (min sr2 beta)

/-- The maximizing (computer) branch loop of `minimax`: running maximum,
break when it reaches `beta` or above, else tighten `alpha`. -/
def abMaxLoop (f : Board → Bool → ℤ → ℤ → ℤ) (b : Board) :
    List ℕ → ℤ → ℤ → ℤ → ℤ
  | [], sr, _, _ => sr
  | i :: rest, sr, alpha, beta =>
    if b.getD i 0 = 0 then abMaxLoop f b rest sr alpha beta
    else
      let mv := move b i false
      let sr2 := max sr (f mv.2 mv.1 alpha beta)
      if beta ≤ sr2 then sr2
      else abMaxLoop f b rest sr2 (max sr2 alpha) beta

/-- `minimax(position, player, depth, alpha, beta)`.  Terminal checks come
before the depth check; the terminal sweeps mutate the board, so the board
the caller's array holds on return is part of the result. -/
def minimax : Board → Bool → ℕ → ℤ → ℤ → ℤ × Board
  | b, player, depth, alpha, beta =>
    if playerEmpty b then
      let b2 := sweepIntoComputer b
      (Evaluation b2, b2)
    else if computerEmpty b then
      let b2 := sweepIntoPlayer b
      (Evaluation b2, b2)
    else
      match depth with
      | 0 => (Evaluation b, b)
      | d + 1 =>
        if player then
          (abMinLoop (fun b2 p2 a2 be2 => (minimax b2 p2 d a2 be2).1)
            b [0, 1, 2, 3, 4, 5] 127 alpha beta, b)
        else
          (abMaxLoop (fun b2 p2 a2 be2 => (minimax b2 p2 d a2 be2).1)
            b [7, 8, 9, 10, 11, 12] (-128) alpha beta, b)

/-- Reference full-width minimizing loop: same move enumeration as
`abMinLoop`, no pruning. -/
def refMinLoop (f : Board → Bool → ℤ) (b : Board) : List ℕ → ℤ → ℤ
  | [], sr => sr
  | i :: rest, sr =>
    if b.getD i 0 = 0 then refMinLoop f b rest sr
    else
      let mv := move b i true
      refMinLoop f b rest (min sr (f mv.2 mv.1))

/-- Reference full-width maximizing loop. -/
def refMaxLoop (f : Board → Bool → ℤ) (b : Board) : List ℕ → ℤ → ℤ
  | [], sr => sr
  | i :: rest, sr =>
    if b.getD i 0 = 0 then refMaxLoop f b rest sr
    else
      let mv := move b i false
      refMaxLoop f b rest (max sr (f mv.2 mv.1))

/-- Reference full-width minimax: identical terminal handling and move
enumeration as `minimax`, no alpha-beta pruning.  This is the comparison
point demanded by the spec's pruning-correctness property. -/
def minimaxRef : Board → Bool → ℕ → ℤ
  | b, player, depth =>
    if playerEmpty b then Evaluation (sweepIntoComputer b)
    else if computerEmpty b then Evaluation (sweepIntoPlayer b)
    else
      match depth with
      | 0 => Evaluation b
      | d + 1 =>
        if player then
          refMinLoop (fun b2 p2 => minimaxRef b2 p2 d) b [0, 1, 2, 3, 4, 5] 127
        else
          refMaxLoop (fun b2 p2 => minimaxRef b2 p2 d) b [7, 8, 9, 10, 11, 12] (-128)

/-- `minimaxThreadCall`: memcpy the root position into a private copy,
apply the first move there, and search it with the full window.  Note
`depth - 1` is computed on a `uint8_t`, hence `u8sub1`.  The second
component is what the caller's array holds afterwards: the thread only
reads `position`, all its writes target the copy. -/
def minimaxThreadCall (position : Board) (firstMove : ℕ) (player : Bool)
    (depth : ℕ) : ℤ × Board :=
  let positionCopy := position
  let mv := move positionCopy firstMove player
  ((minimax mv.2 mv.1 (u8sub1 depth) (-128) 127).1, position)

/-- Which cell the root examines for slot `i`: own pit `i` for the player,
`i + 7` for the computer. -/
def rootSel (player : Bool) (i : ℕ) : ℕ := if player then i else i + 7

/-- The per-slot thread results of `minimaxRoot`: `none` models the
`nullptr` left for an empty pit. -/
def rootResults (position : Board) (player : Bool) (depth : ℕ) :
    List (Option ℤ) :=
  (List.range 6).map (fun i =>
    if position.getD (rootSel player i) 0 = 0 then none
    else some (minimaxThreadCall position (rootSel player i) player depth).1)

/-- The aggregation loop of `minimaxRoot` after the join: scan slots in
ascending order; the player keeps a strictly smaller score, the computer a
strictly larger one; the stored index is `i` for the player and `i + 7`
for the computer.  The accumulator's `Option ℕ` models `bestIndex`, which
starts never-assigned. -/
def aggLoop (player : Bool) (results : List (Option ℤ)) :
    List ℕ → ℤ × Option ℕ → ℤ × Option ℕ
  | [], acc => acc
  | i :: rest, acc =>
    match results.getD i none with
    | none => aggLoop player results rest acc
    | some r =>
      if player then
        if r < acc.1 then aggLoop player results rest (r, some i)
        else aggLoop player results rest acc
      else
        if acc.1 < r then aggLoop player results rest (r, some (i + 7))
        else aggLoop player results rest acc

/-- `minimaxRoot(position, player, depth)`: spawn one search per non-empty
own pit, join, then aggregate.  Result: (score, bestIndex, what the
caller's array holds afterwards).  `minimaxRoot` itself only reads
`position`. -/
def minimaxRoot (position : Board) (player : Bool) (depth : ℕ) :
    ℤ × Option ℕ × Board :=
  let agg := aggLoop player (rootResults position player depth)
    (List.range 6) (if player then 127 else -128, none)
  (agg.1, agg.2, position)

/-- The score `minimaxRoot` computes for root slot `i`. -/
def branchScore (b : Board) (player : Bool) (depth : ℕ) (i : ℕ) : ℤ :=
  (minimaxThreadCall b (rootSel player i) player depth).1

/-- Static evaluation with the terminal sweeps of `minimax` applied first:
what a depth-0 `minimax` call returns. -/
def immediateEval (b : Board) : ℤ :=
  if playerEmpty b then Evaluation (sweepIntoComputer b)
  else if computerEmpty b then Evaluation (sweepIntoPlayer b)
  else Evaluation b

/-- The overflow check opening `Environment::start` (lines 389-397): it
sums the 14 counters, prints a warning when the total exceeds 127, and
then unconditionally proceeds into the game loop with the very same
board — there is no rejecting branch in the source.  First component:
whether the warning is printed; second: the board handed to the loop
(`some` because `start` always continues). -/
def startPreamble (b : Board) : Bool × Option Board :=
  (decide (127 < b.sum), some b)

/-- The validity precondition the spec attaches to `applyMove`: the pit is
one of the mover's six playing pits and is non-empty. -/
def validMove (b : Board) (sel : ℕ) (player : Bool) : Prop :=
  (if player then sel < 6 else 7 ≤ sel ∧ sel < 13) ∧ 0 < b.getD sel 0

instance (b : Board) (sel : ℕ) (player : Bool) : Decidable (validMove b sel player) := by
  unfold validMove
  infer_instance

/-- The input validation of the human-agent path of `Agent::Move`
(line 301): the typed move is applied only when it is below 6 and the
mapped pit is non-empty; otherwise nothing is applied (`none`). -/
def agentHumanMove (board : Board) (turn : Bool) (inputMove : ℕ) :
    Option (Bool × Board) :=
  if inputMove < 6 ∧ 0 < board.getD (if turn then inputMove else 12 - inputMove) 0
  then some (move board (if turn then inputMove else 12 - inputMove) turn)
  else none

/-- Window clamp used to state alpha-beta correctness. -/
def clamp (alpha beta x : ℤ) : ℤ := max alpha (min x beta)

/-- A board that a `uint8_t position[14]` can actually hold: 14 cells,
each below 256. -/
def WfBoard (b : Board) : Prop := b.length = 14 ∧ ∀ x ∈ b, x < 256

/-! ## List helpers -/

theorem getD_set_ne (l : List ℕ) (i j v : ℕ) (h : i ≠ j) :
    (l.set i v).getD j 0 = l.getD j 0 := by
  induction l generalizing i j with
  | nil => simp
  | cons a tl ih =>
    cases i with
    | zero =>
      cases j with
      | zero => exact absurd rfl h
      | succ j => simp [List.set]
    | succ i =>
      cases j with
      | zero => simp [List.set]
      | succ j => simpa [List.set] using ih i j (by omega)

theorem getD_set_self (l : List ℕ) (i v : ℕ) (h : i < l.length) :
    (l.set i v).getD i 0 = v := by
  induction l generalizing i with
  | nil => simp at h
  | cons a tl ih =>
    cases i with
    | zero => simp [List.set]
    | succ i => simpa [List.set] using ih i (by simpa using h)

theorem sum_set (l : List ℕ) (i v : ℕ) (h : i < l.length) :
    (l.set i v).sum + l.getD i 0 = l.sum + v := by
  induction l generalizing i with
  | nil => simp at h
  | cons a tl ih =>
    cases i with
    | zero => simp [List.set]; omega
    | succ i =>
      have := ih i (by simpa using h)
      simp only [List.set, List.sum_cons, List.getD_cons_succ]
      omega

theorem getD_le_sum (l : List ℕ) (i : ℕ) : l.getD i 0 ≤ l.sum := by
  induction l generalizing i with
  | nil => simp
  | cons a tl ih =>
    cases i with
    | zero => simp
    | succ i =>
      have := ih i
      simp only [List.getD_cons_succ, List.sum_cons]
      omega

theorem getD_pair_le_sum (l : List ℕ) (i j : ℕ) (h : i ≠ j) :
    l.getD i 0 + l.getD j 0 ≤ l.sum := by
  induction l generalizing i j with
  | nil => simp
  | cons a tl ih =>
    cases i with
    | zero =>
      cases j with
      | zero => exact absurd rfl h
      | succ j =>
        have := getD_le_sum tl j
        simp only [List.getD_cons_zero, List.getD_cons_succ, List.sum_cons]
        omega
    | succ i =>
      cases j with
      | zero =>
        have := getD_le_sum tl i
        simp only [List.getD_cons_zero, List.getD_cons_succ, List.sum_cons]
        omega
      | succ j =>
        have := ih i j (by omega)
        simp only [List.getD_cons_succ, List.sum_cons]
        omega

theorem set_zero_of_getD_zero (l : List ℕ) (i : ℕ) (h : l.getD i 0 = 0) :
    l.set i 0 = l := by
  induction l generalizing i with
  | nil => simp
  | cons a tl ih =>
    cases i with
    | zero => simp_all [List.set]
    | succ i => simp_all [List.set]

/-! ## Bounds on the int8 evaluation and the search scores -/

theorem i8_bounds (z : ℤ) : -128 ≤ i8 z ∧ i8 z ≤ 127 := by
  unfold i8
  have h1 : 0 ≤ (z + 128) % 256 := Int.emod_nonneg _ (by norm_num)
  have h2 : (z + 128) % 256 < 256 := Int.emod_lt_of_pos _ (by norm_num)
  omega

theorem Evaluation_bounds (b : Board) : -128 ≤ Evaluation b ∧ Evaluation b ≤ 127 :=
  i8_bounds _

theorem abMinLoop_bounds (f : Board → Bool → ℤ → ℤ → ℤ) (b : Board)
    (hf : ∀ b2 p2 a2 be2, -128 ≤ f b2 p2 a2 be2 ∧ f b2 p2 a2 be2 ≤ 127) :
    ∀ (idxs : List ℕ) (sr alpha beta : ℤ), -128 ≤ sr → sr ≤ 127 →
      -128 ≤ abMinLoop f b idxs sr alpha beta ∧
      abMinLoop f b idxs sr alpha beta ≤ 127 := by
  intro idxs
  induction idxs with
  | nil => intro sr alpha beta h1 h2; simpa [abMinLoop] using And.intro h1 h2
  | cons i rest ih =>
    intro sr alpha beta h1 h2
    simp only [abMinLoop]
    split
    · exact ih sr alpha beta h1 h2
    · have hfv := hf (move b i true).2 (move b i true).1 alpha beta
      split
      · constructor <;> omega
      · exact ih _ alpha _ (by omega) (by omega)

theorem abMaxLoop_bounds (f : Board → Bool → ℤ → ℤ → ℤ) (b : Board)
    (hf : ∀ b2 p2 a2 be2, -128 ≤ f b2 p2 a2 be2 ∧ f b2 p2 a2 be2 ≤ 127) :
    ∀ (idxs : List ℕ) (sr alpha beta : ℤ), -128 ≤ sr → sr ≤ 127 →
      -128 ≤ abMaxLoop f b idxs sr alpha beta ∧
      abMaxLoop f b idxs sr alpha beta ≤ 127 := by
  intro idxs
  induction idxs with
  | nil => intro sr alpha beta h1 h2; simpa [abMaxLoop] using And.intro h1 h2
  | cons i rest ih =>
    intro sr alpha beta h1 h2
    simp only [abMaxLoop]
    split
    · exact ih sr alpha beta h1 h2
    · have hfv := hf (move b i false).2 (move b i false).1 alpha beta
      split
      · constructor <;> omega
      · exact ih _ _ beta (by omega) (by omega)

theorem refMinLoop_bounds (g : Board → Bool → ℤ) (b : Board)
    (hg : ∀ b2 p2, -128 ≤ g b2 p2 ∧ g b2 p2 ≤ 127) :
    ∀ (idxs : List ℕ) (sr : ℤ), -128 ≤ sr → sr ≤ 127 →
      -128 ≤ refMinLoop g b idxs sr ∧ refMinLoop g b idxs sr ≤ 127 := by
  intro idxs
  induction idxs with
  | nil => intro sr h1 h2; simpa [refMinLoop] using And.intro h1 h2
  | cons i rest ih =>
    intro sr h1 h2
    simp only [refMinLoop]
    split
    · exact ih sr h1 h2
    · have hgv := hg (move b i true).2 (move b i true).1
      exact ih _ (by omega) (by omega)

theorem refMaxLoop_bounds (g : Board → Bool → ℤ) (b : Board)
    (hg : ∀ b2 p2, -128 ≤ g b2 p2 ∧ g b2 p2 ≤ 127) :
    ∀ (idxs : List ℕ) (sr : ℤ), -128 ≤ sr → sr ≤ 127 →
      -128 ≤ refMaxLoop g b idxs sr ∧ refMaxLoop g b idxs sr ≤ 127 := by
  intro idxs
  induction idxs with
  | nil => intro sr h1 h2; simpa [refMaxLoop] using And.intro h1 h2
  | cons i rest ih =>
    intro sr h1 h2
    simp only [refMaxLoop]
    split
    · exact ih sr h1 h2
    · have hgv := hg (move b i false).2 (move b i false).1
      exact ih _ (by omega) (by omega)

theorem minimax_bounds (d : ℕ) : ∀ (b : Board) (p : Bool) (alpha beta : ℤ),
    -128 ≤ (minimax b p d alpha beta).1 ∧ (minimax b p d alpha beta).1 ≤ 127 := by
  induction d with
  | zero =>
    intro b p alpha beta
    simp only [minimax]
    split
    · exact i8_bounds _
    · split
      · exact i8_bounds _
      · exact i8_bounds _
  | succ d ih =>
    intro b p alpha beta
    simp only [minimax]
    split
    · exact i8_bounds _
    · split
      · exact i8_bounds _
      · split
        · exact abMinLoop_bounds _ b (fun b2 p2 a2 be2 => ih b2 p2 a2 be2) _ _ _ _
            (by norm_num) (by norm_num)
        · exact abMaxLoop_bounds _ b (fun b2 p2 a2 be2 => ih b2 p2 a2 be2) _ _ _ _
            (by norm_num) (by norm_num)

theorem minimaxRef_bounds (d : ℕ) : ∀ (b : Board) (p : Bool),
    -128 ≤ minimaxRef b p d ∧ minimaxRef b p d ≤ 127 := by
  induction d with
  | zero =>
    intro b p
    simp only [minimaxRef]
    split
    · exact i8_bounds _
    · split
      · exact i8_bounds _
      · exact i8_bounds _
  | succ d ih =>
    intro b p
    simp only [minimaxRef]
    split
    · exact i8_bounds _
    · split
      · exact i8_bounds _
      · split
        · exact refMinLoop_bounds _ b (fun b2 p2 => ih b2 p2) _ _ (by norm_num) (by norm_num)
        · exact refMaxLoop_bounds _ b (fun b2 p2 => ih b2 p2) _ _ (by norm_num) (by norm_num)

/-! ## Loop monotonicity and factoring -/

theorem abMinLoop_le_sr (f : Board → Bool → ℤ → ℤ → ℤ) (b : Board) :
    ∀ (idxs : List ℕ) (sr alpha beta : ℤ),
      abMinLoop f b idxs sr alpha beta ≤ sr := by
  intro idxs
  induction idxs with
  | nil => intro sr alpha beta; simp [abMinLoop]
  | cons i rest ih =>
    intro sr alpha beta
    simp only [abMinLoop]
    split
    · exact ih sr alpha beta
    · split
      · omega
      · have := ih (min sr (f (move b i true).2 (move b i true).1 alpha beta))
          alpha (min (min sr (f (move b i true).2 (move b i true).1 alpha beta)) beta)
        omega

theorem abMaxLoop_ge_sr (f : Board → Bool → ℤ → ℤ → ℤ) (b : Board) :
    ∀ (idxs : List ℕ) (sr alpha beta : ℤ),
      sr ≤ abMaxLoop f b idxs sr alpha beta := by
  intro idxs
  induction idxs with
  | nil => intro sr alpha beta; simp [abMaxLoop]
  | cons i rest ih =>
    intro sr alpha beta
    simp only [abMaxLoop]
    split
    · exact ih sr alpha beta
    · split
      · omega
      · have := ih (max sr (f (move b i false).2 (move b i false).1 alpha beta))
          (max (max sr (f (move b i false).2 (move b i false).1 alpha beta)) alpha) beta
        omega

theorem refMinLoop_le_sr (g : Board → Bool → ℤ) (b : Board) :
    ∀ (idxs : List ℕ) (sr : ℤ), refMinLoop g b idxs sr ≤ sr := by
  intro idxs
  induction idxs with
  | nil => intro sr; simp [refMinLoop]
  | cons i rest ih =>
    intro sr
    simp only [refMinLoop]
    split
    · exact ih sr
    · have := ih (min sr (g (move b i true).2 (move b i true).1))
      omega

theorem refMaxLoop_ge_sr (g : Board → Bool → ℤ) (b : Board) :
    ∀ (idxs : List ℕ) (sr : ℤ), sr ≤ refMaxLoop g b idxs sr := by
  intro idxs
  induction idxs with
  | nil => intro sr; simp [refMaxLoop]
  | cons i rest ih =>
    intro sr
    simp only [refMaxLoop]
    split
    · exact ih sr
    · have := ih (max sr (g (move b i false).2 (move b i false).1))
      omega

theorem refMinLoop_factor (g : Board → Bool → ℤ) (b : Board) :
    ∀ (idxs : List ℕ) (x y : ℤ),
      refMinLoop g b idxs (min x y) = min x (refMinLoop g b idxs y) := by
  intro idxs
  induction idxs with
  | nil => intro x y; simp [refMinLoop]
  | cons i rest ih =>
    intro x y
    simp only [refMinLoop]
    split
    · exact ih x y
    · rw [min_assoc, ih]

theorem refMaxLoop_factor (g : Board → Bool → ℤ) (b : Board) :
    ∀ (idxs : List ℕ) (x y : ℤ),
      refMaxLoop g b idxs (max x y) = max x (refMaxLoop g b idxs y) := by
  intro idxs
  induction idxs with
  | nil => intro x y; simp [refMaxLoop]
  | cons i rest ih =>
    intro x y
    simp only [refMaxLoop]
    split
    · exact ih x y
    · rw [max_assoc, ih]

/-! ## Alpha-beta correctness: the pruned loops agree with the full-width
loops inside the window -/

theorem abMinLoop_clamp (f : Board → Bool → ℤ → ℤ → ℤ) (g : Board → Bool → ℤ)
    (hf : ∀ b2 p2 a2 be2, a2 < be2 →
      clamp a2 be2 (f b2 p2 a2 be2) = clamp a2 be2 (g b2 p2)) (b : Board) :
    ∀ (idxs : List ℕ) (sr alpha beta : ℤ), alpha < beta →
      clamp alpha beta (abMinLoop f b idxs sr alpha beta) =
      clamp alpha beta (refMinLoop g b idxs sr) := by
  intro idxs
  induction idxs with
  | nil => intro sr alpha beta _; simp [abMinLoop, refMinLoop]
  | cons i rest ih =>
    intro sr alpha beta hab
    simp only [abMinLoop, refMinLoop]
    split
    · exact ih sr alpha beta hab
    · set a := f (move b i true).2 (move b i true).1 alpha beta with ha
      set v := g (move b i true).2 (move b i true).1 with hv
      have hfa : clamp alpha beta a = clamp alpha beta v :=
        hf (move b i true).2 (move b i true).1 alpha beta hab
      by_cases hbr : min sr a ≤ alpha
      · simp only [if_pos hbr]
        have hL : clamp alpha beta (min sr a) = alpha := by unfold clamp; omega
        have hR : refMinLoop g b rest (min sr v) ≤ alpha := by
          have hmono := refMinLoop_le_sr g b rest (min sr v)
          rcases le_or_lt sr alpha with h1 | h1
          · omega
          · have h2 : a ≤ alpha := by omega
            have h3 : v ≤ alpha := by
              by_contra hcon
              push_neg at hcon
              have e1 : clamp alpha beta a = alpha := by unfold clamp; omega
              have e2 : clamp alpha beta v > alpha := by unfold clamp; omega
              omega
            omega
        rw [hL]
        unfold clamp
        omega
      · simp only [if_neg hbr]
        push_neg at hbr
        have hax : alpha < min (min sr a) beta := by omega
        have hihx := ih (min sr a) alpha (min (min sr a) beta) hax
        have hr := abMinLoop_le_sr f b rest (min sr a) alpha (min (min sr a) beta)
        set r := abMinLoop f b rest (min sr a) alpha (min (min sr a) beta) with hrdef
        have stepA : clamp alpha beta r = clamp alpha (min (min sr a) beta) r := by
          unfold clamp; omega
        have hNle := refMinLoop_le_sr g b rest sr
        set N := refMinLoop g b rest sr with hN
        have factA : refMinLoop g b rest (min sr a) = min a N := by
          rw [min_comm sr a, refMinLoop_factor]
        have factV : refMinLoop g b rest (min sr v) = min v N := by
          rw [min_comm sr v, refMinLoop_factor]
        rw [stepA, hihx, factA, factV]
        by_cases hge : beta ≤ a
        · have hvge : beta ≤ v := by
            by_contra hcon
            push_neg at hcon
            have e1 : clamp alpha beta a = beta := by unfold clamp; omega
            have e2 : clamp alpha beta v < beta := by unfold clamp; omega
            omega
          unfold clamp
          omega
        · push_neg at hge
          have hva : v = a := by
            have e1 : clamp alpha beta a = a := by unfold clamp; omega
            have e2 : clamp alpha beta v = a := by omega
            unfold clamp at e2
            omega
          rw [hva]
          unfold clamp
          omega

theorem abMaxLoop_clamp (f : Board → Bool → ℤ → ℤ → ℤ) (g : Board → Bool → ℤ)
    (hf : ∀ b2 p2 a2 be2, a2 < be2 →
      clamp a2 be2 (f b2 p2 a2 be2) = clamp a2 be2 (g b2 p2)) (b : Board) :
    ∀ (idxs : List ℕ) (sr alpha beta : ℤ), alpha < beta →
      clamp alpha beta (abMaxLoop f b idxs sr alpha beta) =
      clamp alpha beta (refMaxLoop g b idxs sr) := by
  intro idxs
  induction idxs with
  | nil => intro sr alpha beta _; simp [abMaxLoop, refMaxLoop]
  | cons i rest ih =>
    intro sr alpha beta hab
    simp only [abMaxLoop, refMaxLoop]
    split
    · exact ih sr alpha beta hab
    · set a := f (move b i false).2 (move b i false).1 alpha beta with ha
      set v := g (move b i false).2 (move b i false).1 with hv
      have hfa : clamp alpha beta a = clamp alpha beta v :=
        hf (move b i false).2 (move b i false).1 alpha beta hab
      by_cases hbr : beta ≤ max sr a
      · simp only [if_pos hbr]
        have hL : clamp alpha beta (max sr a) = beta := by unfold clamp; omega
        have hR : beta ≤ refMaxLoop g b rest (max sr v) := by
          have hmono := refMaxLoop_ge_sr g b rest (max sr v)
          rcases le_or_lt beta sr with h1 | h1
          · omega
          · have h2 : beta ≤ a := by omega
            have h3 : beta ≤ v := by
              by_contra hcon
              push_neg at hcon
              have e1 : clamp alpha beta a = beta := by unfold clamp; omega
              have e2 : clamp alpha beta v < beta := by unfold clamp; omega
              omega
            omega
        rw [hL]
        unfold clamp
        omega
      · simp only [if_neg hbr]
        push_neg at hbr
        have hax : max (max sr a) alpha < beta := by omega
        have hihx := ih (max sr a) (max (max sr a) alpha) beta hax
        have hr := abMaxLoop_ge_sr f b rest (max sr a) (max (max sr a) alpha) beta
        set r := abMaxLoop f b rest (max sr a) (max (max sr a) alpha) beta with hrdef
        have stepA : clamp alpha beta r = clamp (max (max sr a) alpha) beta r := by
          unfold clamp; omega
        have hNge := refMaxLoop_ge_sr g b rest sr
        set N := refMaxLoop g b rest sr with hN
        have factA : refMaxLoop g b rest (max sr a) = max a N := by
          rw [max_comm sr a, refMaxLoop_factor]
        have factV : refMaxLoop g b rest (max sr v) = max v N := by
          rw [max_comm sr v, refMaxLoop_factor]
        rw [stepA, hihx, factA, factV]
        by_cases hge : a ≤ alpha
        · have hvge : v ≤ alpha := by
            by_contra hcon
            push_neg at hcon
            have e1 : clamp alpha beta a = alpha := by unfold clamp; omega
            have e2 : clamp alpha beta v > alpha := by unfold clamp; omega
            omega
          unfold clamp
          omega
        · push_neg at hge
          have hva : v = a := by
            have e1 : clamp alpha beta a = a := by unfold clamp; omega
            have e2 : clamp alpha beta v = a := by omega
            unfold clamp at e2
            omega
          rw [hva]
          unfold clamp
          omega

theorem minimax_clamp (d : ℕ) : ∀ (b : Board) (p : Bool) (alpha beta : ℤ),
    alpha < beta →
    clamp alpha beta (minimax b p d alpha beta).1 =
    clamp alpha beta (minimaxRef b p d) := by
  induction d with
  | zero =>
    intro b p alpha beta _
    simp only [minimax, minimaxRef]
    split
    · rfl
    · split
      · rfl
      · rfl
  | succ d ih =>
    intro b p alpha beta hab
    simp only [minimax, minimaxRef]
    split
    · rfl
    · split
      · rfl
      · split
        · exact abMinLoop_clamp _ _ (fun b2 p2 a2 be2 h2 => ih b2 p2 a2 be2 h2)
            b _ 127 alpha beta hab
        · exact abMaxLoop_clamp _ _ (fun b2 p2 a2 be2 h2 => ih b2 p2 a2 be2 h2)
            b _ (-128) alpha beta hab

/-! ## Sowing: length, landing index and stone conservation -/

theorem getD_lt_256 (b : Board) (h : ∀ x ∈ b, x < 256) (i : ℕ) :
    b.getD i 0 < 256 := by
  induction b generalizing i with
  | nil => simp
  | cons a tl ih =>
    cases i with
    | zero => simpa using h a (by simp)
    | succ i => exact ih (fun x hx => h x (by simp [hx])) i

theorem sow_spec (skip : ℕ) : ∀ (c sel : ℕ) (b : Board), b.length = 14 →
    b.sum + c ≤ 255 →
    (sow skip c sel b).2.length = 14 ∧ (sow skip c sel b).2.sum = b.sum + c := by
  intro c
  induction c with
  | zero => intro sel b hlen hsum; simp [sow, hlen]
  | succ c ih =>
    intro sel b hlen hsum
    simp only [sow]
    split
    · set s := ((sel + 1) % 14 + 1) % 14 with hs
      have hslt : s < 14 := Nat.mod_lt _ (by norm_num)
      have hcell : b.getD s 0 ≤ b.sum := getD_le_sum b s
      have hmod : (b.getD s 0 + 1) % 256 = b.getD s 0 + 1 :=
        Nat.mod_eq_of_lt (by omega)
      have hlen2 : (b.set s ((b.getD s 0 + 1) % 256)).length = 14 := by
        simpa using hlen
      have hsum2 := sum_set b s ((b.getD s 0 + 1) % 256) (by omega)
      have := ih s (b.set s ((b.getD s 0 + 1) % 256)) hlen2 (by omega)
      omega
    · set s := (sel + 1) % 14 with hs
      have hslt : s < 14 := Nat.mod_lt _ (by norm_num)
      have hcell : b.getD s 0 ≤ b.sum := getD_le_sum b s
      have hmod : (b.getD s 0 + 1) % 256 = b.getD s 0 + 1 :=
        Nat.mod_eq_of_lt (by omega)
      have hlen2 : (b.set s ((b.getD s 0 + 1) % 256)).length = 14 := by
        simpa using hlen
      have hsum2 := sum_set b s ((b.getD s 0 + 1) % 256) (by omega)
      have := ih s (b.set s ((b.getD s 0 + 1) % 256)) hlen2 (by omega)
      omega

theorem sow_fst_lt (skip : ℕ) : ∀ (c sel : ℕ) (b : Board), 0 < c →
    (sow skip c sel b).1 < 14 := by
  intro c
  induction c with
  | zero => intro sel b h; omega
  | succ c ih =>
    intro sel b _
    simp only [sow]
    split
    · cases c with
      | zero => simp [sow]; omega
      | succ c => exact ih _ _ (by omega)
    · cases c with
      | zero => simp [sow]; omega
      | succ c => exact ih _ _ (by omega)

/-- Stone conservation through `move` when no `uint8_t` cell can wrap
(total at most 255). -/
theorem move_sum (b : Board) (sel : ℕ) (p : Bool) (hlen : b.length = 14)
    (hsum : b.sum ≤ 255) (hsel : sel < 14) :
    (move b sel p).2.sum = b.sum := by
  have hcount : b.getD sel 0 ≤ b.sum := getD_le_sum b sel
  have hb0len : (b.set sel 0).length = 14 := by simpa using hlen
  have hb0sum := sum_set b sel 0 (by omega)
  simp only [move]
  set skip := if p = true then (13 : ℕ) else 6 with hskip
  have hsow := sow_spec skip (b.getD sel 0) sel (b.set sel 0) hb0len (by omega)
  set fb := sow skip (b.getD sel 0) sel (b.set sel 0) with hfb
  have hb2sum : fb.2.sum = b.sum := by omega
  have hb2len : fb.2.length = 14 := hsow.1
  have hflt : fb.1 < 14 := by
    rcases Nat.eq_zero_or_pos (b.getD sel 0) with hz | hpos
    · have : fb.1 = sel := by rw [hfb, hz]; simp [sow]
      omega
    · exact sow_fst_lt _ _ _ _ hpos
  split
  · -- player = true branch
    split
    · exact hb2sum
    · split
      · rename_i hcond
        obtain ⟨hf6, hf1, hfm⟩ := hcond
        set f := fb.1 with hfdef
        set m := fb.2.getD (14 - f - 2) 0 with hmdef
        set b3 := fb.2.set f 0 with hb3
        have hb3len : b3.length = 14 := by simp [hb3, hb2len]
        have hb3sum : b3.sum + 1 = fb.2.sum := by
          rw [hb3]
          have := sum_set fb.2 f 0 (by omega)
          omega
        have hb3m : b3.getD (14 - f - 2) 0 = m := by
          rw [hb3]; exact getD_set_ne _ _ _ _ (by omega)
        have hpair := getD_pair_le_sum b3 6 (14 - f - 2) (by omega)
        have hmod : (b3.getD 6 0 + b3.getD (14 - f - 2) 0 + 1) % 256 =
            b3.getD 6 0 + b3.getD (14 - f - 2) 0 + 1 := by
          apply Nat.mod_eq_of_lt
          omega
        set b4 := b3.set 6 ((b3.getD 6 0 + b3.getD (14 - f - 2) 0 + 1) % 256)
          with hb4
        have hb4len : b4.length = 14 := by simp [hb4, hb3len]
        have hb4sum : b4.sum = b3.sum + m + 1 := by
          have hs := sum_set b3 6 ((b3.getD 6 0 + b3.getD (14 - f - 2) 0 + 1) % 256)
            (by omega)
          rw [hmod] at hs
          rw [hb4, hmod]
          omega
        have hb4m : b4.getD (14 - f - 2) 0 = m := by
          rw [hb4, getD_set_ne _ _ _ _ (by omega)]; exact hb3m
        have hb5sum : (b4.set (14 - f - 2) 0).sum + m = b4.sum := by
          have hs := sum_set b4 (14 - f - 2) 0 (by omega)
          rw [hb4m] at hs
          omega
        show (b4.set (14 - f - 2) 0).sum = b.sum
        omega
      · exact hb2sum
  · -- player = false branch
    split
    · exact hb2sum
    · split
      · rename_i hf13 hcond
        obtain ⟨hf6, hf1, hfm⟩ := hcond
        set f := fb.1 with hfdef
        set m := fb.2.getD (14 - f - 2) 0 with hmdef
        set b3 := fb.2.set f 0 with hb3
        have hb3len : b3.length = 14 := by simp [hb3, hb2len]
        have hb3sum : b3.sum + 1 = fb.2.sum := by
          rw [hb3]
          have := sum_set fb.2 f 0 (by omega)
          omega
        have hb3m : b3.getD (14 - f - 2) 0 = m := by
          rw [hb3]; exact getD_set_ne _ _ _ _ (by omega)
        have hpair := getD_pair_le_sum b3 13 (14 - f - 2) (by omega)
        have hmod : (b3.getD 13 0 + b3.getD (14 - f - 2) 0 + 1) % 256 =
            b3.getD 13 0 + b3.getD (14 - f - 2) 0 + 1 := by
          apply Nat.mod_eq_of_lt
          omega
        set b4 := b3.set 13 ((b3.getD 13 0 + b3.getD (14 - f - 2) 0 + 1) % 256)
          with hb4
        have hb4len : b4.length = 14 := by simp [hb4, hb3len]
        have hb4sum : b4.sum = b3.sum + m + 1 := by
          have hs := sum_set b3 13 ((b3.getD 13 0 + b3.getD (14 - f - 2) 0 + 1) % 256)
            (by omega)
          rw [hmod] at hs
          rw [hb4, hmod]
          omega
        have hb4m : b4.getD (14 - f - 2) 0 = m := by
          rw [hb4, getD_set_ne _ _ _ _ (by omega)]; exact hb3m
        have hb5sum : (b4.set (14 - f - 2) 0).sum + m = b4.sum := by
          have hs := sum_set b4 (14 - f - 2) 0 (by omega)
          rw [hb4m] at hs
          omega
        show (b4.set (14 - f - 2) 0).sum = b.sum
        omega
      · exact hb2sum

/-! ## The capture branch and the unvalidated-input behaviour of `move` -/

/-- Capture: when the last stone lands (at `f`, with sown board `b2`) in one
of the mover's own pits with new count exactly 1 and the mirror pit
`14 - f - 2` is non-empty, the mover's store receives both pits' stones
plus the landing stone, both pits are zeroed, and the opponent moves
next. -/
theorem move_capture (b : Board) (sel : ℕ) (p : Bool) (f : ℕ) (b2 : Board)
    (hlen : b.length = 14) (hsum : b.sum ≤ 255) (hvalid : validMove b sel p)
    (hsowEq : sow (if p = true then 13 else 6) (b.getD sel 0) sel (b.set sel 0) = (f, b2))
    (hown : if p = true then f < 6 else 6 < f ∧ f < 13)
    (hone : b2.getD f 0 = 1)
    (hmir : 0 < b2.getD (14 - f - 2) 0) :
    (move b sel p).1 = !p ∧
    (move b sel p).2.getD (if p = true then 6 else 13) 0 =
      b2.getD (if p = true then 6 else 13) 0 + b2.getD (14 - f - 2) 0 + 1 ∧
    (move b sel p).2.getD f 0 = 0 ∧
    (move b sel p).2.getD (14 - f - 2) 0 = 0 := by
  have hsel : sel < 14 := by
    rcases hvalid with ⟨hr, _⟩
    cases p <;> simp at hr <;> omega
  have hb0len : (b.set sel 0).length = 14 := by simpa using hlen
  have hb0sum := sum_set b sel 0 (by omega)
  have hcount : b.getD sel 0 ≤ b.sum := getD_le_sum b sel
  have hsow := sow_spec (if p = true then 13 else 6) (b.getD sel 0) sel (b.set sel 0)
    hb0len (by omega)
  rw [hsowEq] at hsow
  dsimp only at hsow
  have hb2len : b2.length = 14 := hsow.1
  have hb2sum : b2.sum = b.sum := by omega
  simp only [move, hsowEq]
  cases p with
  | false =>
    simp only [Bool.false_eq_true, if_false] at hown ⊢
    obtain ⟨hgt, hlt⟩ := hown
    have hfne13 : ¬ (f = 13) := by omega
    rw [if_neg hfne13, if_pos ⟨hgt, hone, hmir⟩]
    have hmlt : 14 - f - 2 < 6 := by omega
    set m := b2.getD (14 - f - 2) 0 with hm
    set b3 := b2.set f 0 with hb3
    have hb3len : b3.length = 14 := by simp [hb3, hb2len]
    have hb3sum : b3.sum + 1 = b2.sum := by
      rw [hb3]
      have := sum_set b2 f 0 (by omega)
      omega
    have hb3m : b3.getD (14 - f - 2) 0 = m := by
      rw [hb3]; exact getD_set_ne _ _ _ _ (by omega)
    have hb3st : b3.getD 13 0 = b2.getD 13 0 := by
      rw [hb3]; exact getD_set_ne _ _ _ _ (by omega)
    have hb3f : b3.getD f 0 = 0 := by
      rw [hb3]; exact getD_set_self _ _ _ (by omega)
    have hpair := getD_pair_le_sum b3 13 (14 - f - 2) (by omega)
    have hmod : (b3.getD 13 0 + b3.getD (14 - f - 2) 0 + 1) % 256 =
        b3.getD 13 0 + b3.getD (14 - f - 2) 0 + 1 := by
      apply Nat.mod_eq_of_lt
      omega
    set b4 := b3.set 13 ((b3.getD 13 0 + b3.getD (14 - f - 2) 0 + 1) % 256) with hb4
    have hb4len : b4.length = 14 := by simp [hb4, hb3len]
    have hb4st : b4.getD 13 0 = b2.getD 13 0 + m + 1 := by
      rw [hb4, getD_set_self _ _ _ (by omega), hmod, hb3st, hb3m]
    have hb4f : b4.getD f 0 = 0 := by
      rw [hb4, getD_set_ne _ _ _ _ (by omega)]; exact hb3f
    refine ⟨rfl, ?_, ?_, ?_⟩
    · rw [getD_set_ne _ _ _ _ (by omega)]; exact hb4st
    · rw [getD_set_ne _ _ _ _ (by omega)]; exact hb4f
    · exact getD_set_self _ _ _ (by omega)
  | true =>
    simp only [if_true] at hown ⊢
    have hfne6 : ¬ (f = 6) := by omega
    rw [if_neg hfne6, if_pos ⟨hown, hone, hmir⟩]
    have hmgt : 6 < 14 - f - 2 ∧ 14 - f - 2 < 14 := by omega
    set m := b2.getD (14 - f - 2) 0 with hm
    set b3 := b2.set f 0 with hb3
    have hb3len : b3.length = 14 := by simp [hb3, hb2len]
    have hb3sum : b3.sum + 1 = b2.sum := by
      rw [hb3]
      have := sum_set b2 f 0 (by omega)
      omega
    have hb3m : b3.getD (14 - f - 2) 0 = m := by
      rw [hb3]; exact getD_set_ne _ _ _ _ (by omega)
    have hb3st : b3.getD 6 0 = b2.getD 6 0 := by
      rw [hb3]; exact getD_set_ne _ _ _ _ (by omega)
    have hb3f : b3.getD f 0 = 0 := by
      rw [hb3]; exact getD_set_self _ _ _ (by omega)
    have hpair := getD_pair_le_sum b3 6 (14 - f - 2) (by omega)
    have hmod : (b3.getD 6 0 + b3.getD (14 - f - 2) 0 + 1) % 256 =
        b3.getD 6 0 + b3.getD (14 - f - 2) 0 + 1 := by
      apply Nat.mod_eq_of_lt
      omega
    set b4 := b3.set 6 ((b3.getD 6 0 + b3.getD (14 - f - 2) 0 + 1) % 256) with hb4
    have hb4len : b4.length = 14 := by simp [hb4, hb3len]
    have hb4st : b4.getD 6 0 = b2.getD 6 0 + m + 1 := by
      rw [hb4, getD_set_self _ _ _ (by omega), hmod, hb3st, hb3m]
    have hb4f : b4.getD f 0 = 0 := by
      rw [hb4, getD_set_ne _ _ _ _ (by omega)]; exact hb3f
    refine ⟨rfl, ?_, ?_, ?_⟩
    · rw [getD_set_ne _ _ _ _ (by omega)]; exact hb4st
    · rw [getD_set_ne _ _ _ _ (by omega)]; exact hb4f
    · exact getD_set_self _ _ _ (by omega)

/-- `move` performs no validation: selecting an empty cell leaves every
counter untouched, yet still reports whose turn is next. -/
theorem move_emptyPit (b : Board) (sel : ℕ) (p : Bool) (hz : b.getD sel 0 = 0) :
    (move b sel p).2 = b ∧
    (move b sel p).1 =
      (if p = true then (if sel = 6 then true else false)
       else (if sel = 13 then false else true)) := by
  have hset : b.set sel 0 = b := set_zero_of_getD_zero b sel hz
  simp only [move, hz, hset, sow]
  cases p with
  | false =>
    simp only [Bool.false_eq_true, if_false]
    by_cases h13 : sel = 13
    · simp [h13]
    · rw [if_neg h13, if_neg (by simp [hz]), if_neg h13]
      exact ⟨rfl, rfl⟩
  | true =>
    simp only [if_true]
    by_cases h6 : sel = 6
    · simp [h6]
    · rw [if_neg h6, if_neg (by simp [hz]), if_neg h6]
      exact ⟨rfl, rfl⟩

/-! ## The terminal sweeps of `minimax` -/

theorem sweepIntoComputer_store (b : Board) (hlen : b.length = 14) :
    (sweepIntoComputer b).getD 13 0 =
      (b.getD 13 0 + b.getD 7 0 + b.getD 8 0 + b.getD 9 0 + b.getD 10 0 +
        b.getD 11 0 + b.getD 12 0) % 256 := by
  simp only [sweepIntoComputer, List.foldl]
  rw [getD_set_self _ _ _ (by simp [hlen])]
  rw [getD_set_self _ _ _ (by simp [hlen])]
  rw [getD_set_self _ _ _ (by simp [hlen])]
  rw [getD_set_self _ _ _ (by simp [hlen])]
  rw [getD_set_self _ _ _ (by simp [hlen])]
  rw [getD_set_self _ _ _ (by simp [hlen])]
  rw [getD_set_ne _ _ _ _ (by omega), getD_set_ne _ _ _ _ (by omega),
    getD_set_ne _ _ _ _ (by omega), getD_set_ne _ _ _ _ (by omega),
    getD_set_ne _ _ _ _ (by omega)]
  rw [getD_set_ne _ _ _ _ (by omega), getD_set_ne _ _ _ _ (by omega),
    getD_set_ne _ _ _ _ (by omega), getD_set_ne _ _ _ _ (by omega)]
  rw [getD_set_ne _ _ _ _ (by omega), getD_set_ne _ _ _ _ (by omega),
    getD_set_ne _ _ _ _ (by omega)]
  rw [getD_set_ne _ _ _ _ (by omega), getD_set_ne _ _ _ _ (by omega)]
  rw [getD_set_ne _ _ _ _ (by omega)]
  omega

theorem sweepIntoComputer_pits (b : Board) (j : ℕ) (hj : j ≠ 13) :
    (sweepIntoComputer b).getD j 0 = b.getD j 0 := by
  simp only [sweepIntoComputer, List.foldl]
  rw [getD_set_ne _ _ _ _ (by omega), getD_set_ne _ _ _ _ (by omega),
    getD_set_ne _ _ _ _ (by omega), getD_set_ne _ _ _ _ (by omega),
    getD_set_ne _ _ _ _ (by omega), getD_set_ne _ _ _ _ (by omega)]

theorem sweepIntoPlayer_store (b : Board) (hlen : b.length = 14) :
    (sweepIntoPlayer b).getD 6 0 =
      (b.getD 6 0 + b.getD 0 0 + b.getD 1 0 + b.getD 2 0 + b.getD 3 0 +
        b.getD 4 0 + b.getD 5 0) % 256 := by
  simp only [sweepIntoPlayer, List.foldl]
  rw [getD_set_self _ _ _ (by simp [hlen])]
  rw [getD_set_self _ _ _ (by simp [hlen])]
  rw [getD_set_self _ _ _ (by simp [hlen])]
  rw [getD_set_self _ _ _ (by simp [hlen])]
  rw [getD_set_self _ _ _ (by simp [hlen])]
  rw [getD_set_self _ _ _ (by simp [hlen])]
  rw [getD_set_ne _ _ _ _ (by omega), getD_set_ne _ _ _ _ (by omega),
    getD_set_ne _ _ _ _ (by omega), getD_set_ne _ _ _ _ (by omega),
    getD_set_ne _ _ _ _ (by omega)]
  rw [getD_set_ne _ _ _ _ (by omega), getD_set_ne _ _ _ _ (by omega),
    getD_set_ne _ _ _ _ (by omega), getD_set_ne _ _ _ _ (by omega)]
  rw [getD_set_ne _ _ _ _ (by omega), getD_set_ne _ _ _ _ (by omega),
    getD_set_ne _ _ _ _ (by omega)]
  rw [getD_set_ne _ _ _ _ (by omega), getD_set_ne _ _ _ _ (by omega)]
  rw [getD_set_ne _ _ _ _ (by omega)]
  omega

theorem sweepIntoPlayer_pits (b : Board) (j : ℕ) (hj : j ≠ 6) :
    (sweepIntoPlayer b).getD j 0 = b.getD j 0 := by
  simp only [sweepIntoPlayer, List.foldl]
  rw [getD_set_ne _ _ _ _ (by omega), getD_set_ne _ _ _ _ (by omega),
    getD_set_ne _ _ _ _ (by omega), getD_set_ne _ _ _ _ (by omega),
    getD_set_ne _ _ _ _ (by omega), getD_set_ne _ _ _ _ (by omega)]

theorem minimax_playerEmpty (b : Board) (p : Bool) (d : ℕ) (alpha beta : ℤ)
    (h : playerEmpty b = true) :
    minimax b p d alpha beta = (Evaluation (sweepIntoComputer b), sweepIntoComputer b) := by
  cases d <;> simp [minimax, h]

theorem minimax_computerEmpty (b : Board) (p : Bool) (d : ℕ) (alpha beta : ℤ)
    (h1 : playerEmpty b = false) (h2 : computerEmpty b = true) :
    minimax b p d alpha beta = (Evaluation (sweepIntoPlayer b), sweepIntoPlayer b) := by
  cases d <;> simp [minimax, h1, h2]

theorem minimax_zero (b : Board) (p : Bool) (alpha beta : ℤ) :
    (minimax b p 0 alpha beta).1 = immediateEval b := by
  by_cases hp : playerEmpty b <;> by_cases hc : computerEmpty b <;>
    simp [minimax, immediateEval, hp, hc]

/-! ## The root aggregation loop: running extremum with first-wins ties -/

theorem aggLoop_min_le (rs : List (Option ℤ)) :
    ∀ (idxs : List ℕ) (acc : ℤ × Option ℕ),
      (aggLoop true rs idxs acc).1 ≤ acc.1 ∧
      ∀ i ∈ idxs, ∀ r, rs.getD i none = some r →
        (aggLoop true rs idxs acc).1 ≤ r := by
  intro idxs
  induction idxs with
  | nil =>
    intro acc
    refine ⟨le_refl _, ?_⟩
    intro i hi
    simp at hi
  | cons i rest ih =>
    intro acc
    cases hv : rs.getD i none with
    | none =>
      have hred : aggLoop true rs (i :: rest) acc = aggLoop true rs rest acc := by
        simp only [aggLoop, hv]
      rw [hred]
      refine ⟨(ih acc).1, ?_⟩
      intro k hk r hr
      rcases List.mem_cons.mp hk with h1 | h1
      · subst h1; rw [hv] at hr; cases hr
      · exact (ih acc).2 k h1 r hr
    | some rv =>
      by_cases hcmp : rv < acc.1
      · have hred : aggLoop true rs (i :: rest) acc =
            aggLoop true rs rest (rv, some i) := by
          simp only [aggLoop, hv]
          simp [hcmp]
        rw [hred]
        have h1 := (ih (rv, some i)).1
        refine ⟨by simp at h1; omega, ?_⟩
        intro k hk r hr
        rcases List.mem_cons.mp hk with h2 | h2
        · subst h2; rw [hv] at hr; cases hr; simpa using h1
        · exact (ih (rv, some i)).2 k h2 r hr
      · have hred : aggLoop true rs (i :: rest) acc = aggLoop true rs rest acc := by
          simp only [aggLoop, hv]
          simp [hcmp]
        rw [hred]
        refine ⟨(ih acc).1, ?_⟩
        intro k hk r hr
        rcases List.mem_cons.mp hk with h2 | h2
        · subst h2; rw [hv] at hr; cases hr
          have := (ih acc).1
          omega
        · exact (ih acc).2 k h2 r hr

theorem aggLoop_max_le (rs : List (Option ℤ)) :
    ∀ (idxs : List ℕ) (acc : ℤ × Option ℕ),
      acc.1 ≤ (aggLoop false rs idxs acc).1 ∧
      ∀ i ∈ idxs, ∀ r, rs.getD i none = some r →
        r ≤ (aggLoop false rs idxs acc).1 := by
  intro idxs
  induction idxs with
  | nil =>
    intro acc
    refine ⟨le_refl _, ?_⟩
    intro i hi
    simp at hi
  | cons i rest ih =>
    intro acc
    cases hv : rs.getD i none with
    | none =>
      have hred : aggLoop false rs (i :: rest) acc = aggLoop false rs rest acc := by
        simp only [aggLoop, hv]
      rw [hred]
      refine ⟨(ih acc).1, ?_⟩
      intro k hk r hr
      rcases List.mem_cons.mp hk with h1 | h1
      · subst h1; rw [hv] at hr; cases hr
      · exact (ih acc).2 k h1 r hr
    | some rv =>
      by_cases hcmp : acc.1 < rv
      · have hred : aggLoop false rs (i :: rest) acc =
            aggLoop false rs rest (rv, some (i + 7)) := by
          simp only [aggLoop, hv]
          simp [hcmp]
        rw [hred]
        have h1 := (ih (rv, some (i + 7))).1
        refine ⟨by simp at h1; omega, ?_⟩
        intro k hk r hr
        rcases List.mem_cons.mp hk with h2 | h2
        · subst h2; rw [hv] at hr; cases hr; simpa using h1
        · exact (ih (rv, some (i + 7))).2 k h2 r hr
      · have hred : aggLoop false rs (i :: rest) acc = aggLoop false rs rest acc := by
          simp only [aggLoop, hv]
          simp [hcmp]
        rw [hred]
        refine ⟨(ih acc).1, ?_⟩
        intro k hk r hr
        rcases List.mem_cons.mp hk with h2 | h2
        · subst h2; rw [hv] at hr; cases hr
          have := (ih acc).1
          omega
        · exact (ih acc).2 k h2 r hr

theorem aggLoop_min_char (rs : List (Option ℤ)) :
    ∀ (idxs : List ℕ) (acc : ℤ × Option ℕ),
      (aggLoop true rs idxs acc = acc ∧
        ∀ i ∈ idxs, ∀ r, rs.getD i none = some r → acc.1 ≤ r) ∨
      (∃ pre j post, idxs = pre ++ j :: post ∧
        rs.getD j none = some (aggLoop true rs idxs acc).1 ∧
        (aggLoop true rs idxs acc).2 = some j ∧
        (aggLoop true rs idxs acc).1 < acc.1 ∧
        ∀ k ∈ pre, ∀ r, rs.getD k none = some r →
          (aggLoop true rs idxs acc).1 < r) := by
  intro idxs
  induction idxs with
  | nil =>
    intro acc
    left
    refine ⟨rfl, ?_⟩
    intro i hi
    simp at hi
  | cons i rest ih =>
    intro acc
    cases hv : rs.getD i none with
    | none =>
      have hred : aggLoop true rs (i :: rest) acc = aggLoop true rs rest acc := by
        simp only [aggLoop, hv]
      rcases ih acc with ⟨h1, h2⟩ | ⟨pre, j, post, hsplit, hval, hidx, hlt, hpre⟩
      · left
        rw [hred]
        refine ⟨h1, ?_⟩
        intro k hk r hr
        rcases List.mem_cons.mp hk with h3 | h3
        · subst h3; rw [hv] at hr; cases hr
        · exact h2 k h3 r hr
      · right
        refine ⟨i :: pre, j, post, by rw [hsplit]; rfl, by rw [hred]; exact hval,
          by rw [hred]; exact hidx, by rw [hred]; exact hlt, ?_⟩
        intro k hk r hr
        rcases List.mem_cons.mp hk with h3 | h3
        · subst h3; rw [hv] at hr; cases hr
        · rw [hred]; exact hpre k h3 r hr
    | some rv =>
      by_cases hcmp : rv < acc.1
      · have hred : aggLoop true rs (i :: rest) acc =
            aggLoop true rs rest (rv, some i) := by
          simp only [aggLoop, hv]
          simp [hcmp]
        rcases ih (rv, some i) with ⟨h1, h2⟩ |
          ⟨pre, j, post, hsplit, hval, hidx, hlt, hpre⟩
        · right
          refine ⟨[], i, rest, rfl, ?_, ?_, ?_, ?_⟩
          · rw [hred, h1]; exact hv
          · rw [hred, h1]
          · rw [hred, h1]; exact hcmp
          · intro k hk; simp at hk
        · right
          have hlt2 : (aggLoop true rs rest (rv, some i)).1 < rv := by
            simpa using hlt
          refine ⟨i :: pre, j, post, by rw [hsplit]; rfl, by rw [hred]; exact hval,
            by rw [hred]; exact hidx, by rw [hred]; omega, ?_⟩
          intro k hk r hr
          rcases List.mem_cons.mp hk with h3 | h3
          · subst h3; rw [hv] at hr; cases hr; rw [hred]; exact hlt2
          · rw [hred]; exact hpre k h3 r hr
      · have hred : aggLoop true rs (i :: rest) acc = aggLoop true rs rest acc := by
          simp only [aggLoop, hv]
          simp [hcmp]
        rcases ih acc with ⟨h1, h2⟩ | ⟨pre, j, post, hsplit, hval, hidx, hlt, hpre⟩
        · left
          rw [hred]
          refine ⟨h1, ?_⟩
          intro k hk r hr
          rcases List.mem_cons.mp hk with h3 | h3
          · subst h3; rw [hv] at hr; cases hr; omega
          · exact h2 k h3 r hr
        · right
          refine ⟨i :: pre, j, post, by rw [hsplit]; rfl, by rw [hred]; exact hval,
            by rw [hred]; exact hidx, by rw [hred]; exact hlt, ?_⟩
          intro k hk r hr
          rcases List.mem_cons.mp hk with h3 | h3
          · subst h3; rw [hv] at hr; cases hr; rw [hred]; omega
          · rw [hred]; exact hpre k h3 r hr

theorem aggLoop_max_char (rs : List (Option ℤ)) :
    ∀ (idxs : List ℕ) (acc : ℤ × Option ℕ),
      (aggLoop false rs idxs acc = acc ∧
        ∀ i ∈ idxs, ∀ r, rs.getD i none = some r → r ≤ acc.1) ∨
      (∃ pre j post, idxs = pre ++ j :: post ∧
        rs.getD j none = some (aggLoop false rs idxs acc).1 ∧
        (aggLoop false rs idxs acc).2 = some (j + 7) ∧
        acc.1 < (aggLoop false rs idxs acc).1 ∧
        ∀ k ∈ pre, ∀ r, rs.getD k none = some r →
          r < (aggLoop false rs idxs acc).1) := by
  intro idxs
  induction idxs with
  | nil =>
    intro acc
    left
    refine ⟨rfl, ?_⟩
    intro i hi
    simp at hi
  | cons i rest ih =>
    intro acc
    cases hv : rs.getD i none with
    | none =>
      have hred : aggLoop false rs (i :: rest) acc = aggLoop false rs rest acc := by
        simp only [aggLoop, hv]
      rcases ih acc with ⟨h1, h2⟩ | ⟨pre, j, post, hsplit, hval, hidx, hlt, hpre⟩
      · left
        rw [hred]
        refine ⟨h1, ?_⟩
        intro k hk r hr
        rcases List.mem_cons.mp hk with h3 | h3
        · subst h3; rw [hv] at hr; cases hr
        · exact h2 k h3 r hr
      · right
        refine ⟨i :: pre, j, post, by rw [hsplit]; rfl, by rw [hred]; exact hval,
          by rw [hred]; exact hidx, by rw [hred]; exact hlt, ?_⟩
        intro k hk r hr
        rcases List.mem_cons.mp hk with h3 | h3
        · subst h3; rw [hv] at hr; cases hr
        · rw [hred]; exact hpre k h3 r hr
    | some rv =>
      by_cases hcmp : acc.1 < rv
      · have hred : aggLoop false rs (i :: rest) acc =
            aggLoop false rs rest (rv, some (i + 7)) := by
          simp only [aggLoop, hv]
          simp [hcmp]
        rcases ih (rv, some (i + 7)) with ⟨h1, h2⟩ |
          ⟨pre, j, post, hsplit, hval, hidx, hlt, hpre⟩
        · right
          refine ⟨[], i, rest, rfl, ?_, ?_, ?_, ?_⟩
          · rw [hred, h1]; exact hv
          · rw [hred, h1]
          · rw [hred, h1]; exact hcmp
          · intro k hk; simp at hk
        · right
          have hlt2 : rv < (aggLoop false rs rest (rv, some (i + 7))).1 := by
            simpa using hlt
          refine ⟨i :: pre, j, post, by rw [hsplit]; rfl, by rw [hred]; exact hval,
            by rw [hred]; exact hidx, by rw [hred]; omega, ?_⟩
          intro k hk r hr
          rcases List.mem_cons.mp hk with h3 | h3
          · subst h3; rw [hv] at hr; cases hr; rw [hred]; exact hlt2
          · rw [hred]; exact hpre k h3 r hr
      · have hred : aggLoop false rs (i :: rest) acc = aggLoop false rs rest acc := by
          simp only [aggLoop, hv]
          simp [hcmp]
        rcases ih acc with ⟨h1, h2⟩ | ⟨pre, j, post, hsplit, hval, hidx, hlt, hpre⟩
        · left
          rw [hred]
          refine ⟨h1, ?_⟩
          intro k hk r hr
          rcases List.mem_cons.mp hk with h3 | h3
          · subst h3; rw [hv] at hr; cases hr; omega
          · exact h2 k h3 r hr
        · right
          refine ⟨i :: pre, j, post, by rw [hsplit]; rfl, by rw [hred]; exact hval,
            by rw [hred]; exact hidx, by rw [hred]; exact hlt, ?_⟩
          intro k hk r hr
          rcases List.mem_cons.mp hk with h3 | h3
          · subst h3; rw [hv] at hr; cases hr; rw [hred]; omega
          · rw [hred]; exact hpre k h3 r hr

/-! ## Decomposing the root scan -/

theorem range6_decomp (pre post : List ℕ) (j : ℕ)
    (h : pre ++ j :: post = List.range 6) (k : ℕ) : k ∈ pre ↔ k < j := by
  have hlen : pre.length + (post.length + 1) = 6 := by
    have := congrArg List.length h
    simpa [List.length_append] using this
  have hlt : pre.length < 6 := by omega
  have hj : j = pre.length := by
    have h1 : (pre ++ j :: post)[pre.length]? = some j := by
      rw [List.getElem?_append_right (le_refl _)]
      simp
    rw [h, List.getElem?_range hlt] at h1
    exact (Option.some.inj h1).symm
  have hpre : pre = List.range pre.length := by
    have h2 : (pre ++ j :: post).take pre.length = pre := List.take_left pre _
    rw [h, List.take_range, min_eq_left (by omega)] at h2
    exact h2.symm
  rw [hj]
  conv_lhs => rw [hpre]
  exact List.mem_range

theorem rootResults_getD (b : Board) (p : Bool) (d : ℕ) (i : ℕ) (hi : i < 6) :
    (rootResults b p d).getD i none =
      if b.getD (rootSel p i) 0 = 0 then none
      else some (branchScore b p d i) := by
  simp only [rootResults, branchScore]
  rw [List.getD_eq_getElem?_getD, List.getElem?_map, List.getElem?_range hi]
  rfl

theorem minimaxRoot_agg (b : Board) (p : Bool) (d : ℕ) :
    (minimaxRoot b p d).1 =
      (aggLoop p (rootResults b p d) (List.range 6)
        (if p = true then 127 else -128, none)).1 ∧
    (minimaxRoot b p d).2.1 =
      (aggLoop p (rootResults b p d) (List.range 6)
        (if p = true then 127 else -128, none)).2 := by
  exact ⟨rfl, rfl⟩

/-- The root scan, given some legal slot whose branch score beats the
uninitialised sentinel, returns the lowest-indexed legal slot achieving the
extremal branch score. -/
theorem minimaxRoot_spec (b : Board) (p : Bool) (d : ℕ)
    (hbeats : ∃ i, i < 6 ∧ 0 < b.getD (rootSel p i) 0 ∧
      (if p = true then branchScore b p d i < 127
       else -128 < branchScore b p d i)) :
    ∃ j, j < 6 ∧ 0 < b.getD (rootSel p j) 0 ∧
      (minimaxRoot b p d).2.1 = some (rootSel p j) ∧
      (minimaxRoot b p d).1 = branchScore b p d j ∧
      (∀ k, k < 6 → 0 < b.getD (rootSel p k) 0 →
        (if p = true then (minimaxRoot b p d).1 ≤ branchScore b p d k
         else branchScore b p d k ≤ (minimaxRoot b p d).1)) ∧
      (∀ k, k < j → 0 < b.getD (rootSel p k) 0 →
        (if p = true then (minimaxRoot b p d).1 < branchScore b p d k
         else branchScore b p d k < (minimaxRoot b p d).1)) := by
  obtain ⟨i0, hi06, hi0ne, hi0beats⟩ := hbeats
  have hroot := minimaxRoot_agg b p d
  cases p with
  | true =>
    simp only [if_true] at hi0beats hroot
    set rs := rootResults b true d with hrs
    have hv0 : rs.getD i0 none = some (branchScore b true d i0) := by
      rw [hrs, rootResults_getD b true d i0 hi06, if_neg (by omega)]
    rcases aggLoop_min_char rs (List.range 6) (127, none) with
      ⟨heq, hall⟩ | ⟨pre, j, post, hsplit, hvalj, hidx, hlt, hpre⟩
    · exfalso
      have := hall i0 (List.mem_range.mpr hi06) _ hv0
      simp at this
      omega
    · have hj6 : j < 6 := by
        have : j ∈ List.range 6 := by rw [hsplit]; simp
        simpa using this
      have hvj := rootResults_getD b true d j hj6
      rw [← hrs] at hvj
      by_cases hz : b.getD (rootSel true j) 0 = 0
      · rw [if_pos hz] at hvj
        rw [hvj] at hvalj
        cases hvalj
      · rw [if_neg hz] at hvj
        rw [hvj] at hvalj
        have hscore : (aggLoop true rs (List.range 6) (127, none)).1 =
            branchScore b true d j := (Option.some.inj hvalj).symm
        refine ⟨j, hj6, by omega, ?_, ?_, ?_, ?_⟩
        · rw [hroot.2, hidx]
          simp [rootSel]
        · rw [hroot.1, hscore]
        · intro k hk6 hkne
          simp only [if_true]
          have hvk : rs.getD k none = some (branchScore b true d k) := by
            rw [hrs, rootResults_getD b true d k hk6, if_neg (by omega)]
          have := (aggLoop_min_le rs (List.range 6) (127, none)).2 k
            (List.mem_range.mpr hk6) _ hvk
          rw [hroot.1]
          exact this
        · intro k hkj hkne
          simp only [if_true]
          have hk6 : k < 6 := by omega
          have hkpre : k ∈ pre := (range6_decomp pre post j hsplit.symm k).mpr hkj
          have hvk : rs.getD k none = some (branchScore b true d k) := by
            rw [hrs, rootResults_getD b true d k hk6, if_neg (by omega)]
          have := hpre k hkpre _ hvk
          rw [hroot.1]
          exact this
  | false =>
    simp only [Bool.false_eq_true, if_false] at hi0beats hroot
    set rs := rootResults b false d with hrs
    have hv0 : rs.getD i0 none = some (branchScore b false d i0) := by
      rw [hrs, rootResults_getD b false d i0 hi06, if_neg (by omega)]
    rcases aggLoop_max_char rs (List.range 6) (-128, none) with
      ⟨heq, hall⟩ | ⟨pre, j, post, hsplit, hvalj, hidx, hlt, hpre⟩
    · exfalso
      have := hall i0 (List.mem_range.mpr hi06) _ hv0
      simp at this
      omega
    · have hj6 : j < 6 := by
        have : j ∈ List.range 6 := by rw [hsplit]; simp
        simpa using this
      have hvj := rootResults_getD b false d j hj6
      rw [← hrs] at hvj
      by_cases hz : b.getD (rootSel false j) 0 = 0
      · rw [if_pos hz] at hvj
        rw [hvj] at hvalj
        cases hvalj
      · rw [if_neg hz] at hvj
        rw [hvj] at hvalj
        have hscore : (aggLoop false rs (List.range 6) (-128, none)).1 =
            branchScore b false d j := (Option.some.inj hvalj).symm
        refine ⟨j, hj6, by omega, ?_, ?_, ?_, ?_⟩
        · rw [hroot.2, hidx]
          simp [rootSel]
        · rw [hroot.1, hscore]
        · intro k hk6 hkne
          simp only [Bool.false_eq_true, if_false]
          have hvk : rs.getD k none = some (branchScore b false d k) := by
            rw [hrs, rootResults_getD b false d k hk6, if_neg (by omega)]
          have := (aggLoop_max_le rs (List.range 6) (-128, none)).2 k
            (List.mem_range.mpr hk6) _ hvk
          rw [hroot.1]
          exact this
        · intro k hkj hkne
          simp only [Bool.false_eq_true, if_false]
          have hk6 : k < 6 := by omega
          have hkpre : k ∈ pre := (range6_decomp pre post j hsplit.symm k).mpr hkj
          have hvk : rs.getD k none = some (branchScore b false d k) := by
            rw [hrs, rootResults_getD b false d k hk6, if_neg (by omega)]
          have := hpre k hkpre _ hvk
          rw [hroot.1]
          exact this

/-- With no legal slot at all, the scan never assigns `bestIndex`. -/
theorem minimaxRoot_none (b : Board) (p : Bool) (d : ℕ)
    (hempty : ∀ i, i < 6 → b.getD (rootSel p i) 0 = 0) :
    (minimaxRoot b p d).2.1 = none := by
  have hroot := minimaxRoot_agg b p d
  cases p with
  | true =>
    simp only [if_true] at hroot
    rcases aggLoop_min_char (rootResults b true d) (List.range 6) (127, none) with
      ⟨heq, _⟩ | ⟨pre, j, post, hsplit, hvalj, _, _, _⟩
    · rw [hroot.2, heq]
    · exfalso
      have hj6 : j < 6 := by
        have : j ∈ List.range 6 := by rw [hsplit]; simp
        simpa using this
      rw [rootResults_getD b true d j hj6, if_pos (hempty j hj6)] at hvalj
      cases hvalj
  | false =>
    simp only [Bool.false_eq_true, if_false] at hroot
    rcases aggLoop_max_char (rootResults b false d) (List.range 6) (-128, none) with
      ⟨heq, _⟩ | ⟨pre, j, post, hsplit, hvalj, _, _, _⟩
    · rw [hroot.2, heq]
    · exfalso
      have hj6 : j < 6 := by
        have : j ∈ List.range 6 := by rw [hsplit]; simp
        simpa using this
      rw [rootResults_getD b false d j hj6, if_pos (hempty j hj6)] at hvalj
      cases hvalj

/-! ## Branch scores -/

theorem branchScore_bounds (b : Board) (p : Bool) (d : ℕ) (i : ℕ) :
    -128 ≤ branchScore b p d i ∧ branchScore b p d i ≤ 127 := by
  simp only [branchScore, minimaxThreadCall]
  exact minimax_bounds _ _ _ _ _

theorem branchScore_one (b : Board) (p : Bool) (i : ℕ) :
    branchScore b p 1 i = immediateEval (move b (rootSel p i) p).2 := by
  have h1 : u8sub1 1 = 0 := rfl
  simp only [branchScore, minimaxThreadCall, h1]
  exact minimax_zero _ _ _ _

/-- Whatever the sentinel situation, with at least one legal slot the root
score is the extremal branch score over the legal slots. -/
theorem minimaxRoot_extremal (b : Board) (p : Bool) (d : ℕ)
    (hne : ∃ i, i < 6 ∧ 0 < b.getD (rootSel p i) 0) :
    ∃ j, j < 6 ∧ 0 < b.getD (rootSel p j) 0 ∧
      (minimaxRoot b p d).1 = branchScore b p d j ∧
      ∀ k, k < 6 → 0 < b.getD (rootSel p k) 0 →
        (if p = true then (minimaxRoot b p d).1 ≤ branchScore b p d k
         else branchScore b p d k ≤ (minimaxRoot b p d).1) := by
  obtain ⟨i0, hi06, hi0ne⟩ := hne
  have hroot := minimaxRoot_agg b p d
  cases p with
  | true =>
    simp only [if_true] at hroot ⊢
    set rs := rootResults b true d with hrs
    have hv0 : rs.getD i0 none = some (branchScore b true d i0) := by
      rw [hrs, rootResults_getD b true d i0 hi06, if_neg (by omega)]
    have hvleg : ∀ k, k < 6 → 0 < b.getD (rootSel true k) 0 →
        rs.getD k none = some (branchScore b true d k) := by
      intro k hk6 hkne
      rw [hrs, rootResults_getD b true d k hk6, if_neg (by omega)]
    have hmin := aggLoop_min_le rs (List.range 6) (127, none)
    rcases aggLoop_min_char rs (List.range 6) (127, none) with
      ⟨heq, hall⟩ | ⟨pre, j, post, hsplit, hvalj, hidx, hlt, hpre⟩
    · have hscore : (aggLoop true rs (List.range 6) (127, none)).1 = 127 := by
        rw [heq]
      have hge := hall i0 (List.mem_range.mpr hi06) _ hv0
      have hub := (branchScore_bounds b true d i0).2
      refine ⟨i0, hi06, hi0ne, ?_, ?_⟩
      · rw [hroot.1, hscore]
        simp at hge
        omega
      · intro k hk6 hkne
        have := hall k (List.mem_range.mpr hk6) _ (hvleg k hk6 hkne)
        rw [hroot.1, hscore]
        simp at this
        omega
    · have hj6 : j < 6 := by
        have : j ∈ List.range 6 := by rw [hsplit]; simp
        simpa using this
      have hvj := rootResults_getD b true d j hj6
      rw [← hrs] at hvj
      by_cases hz : b.getD (rootSel true j) 0 = 0
      · rw [if_pos hz] at hvj
        rw [hvj] at hvalj
        cases hvalj
      · rw [if_neg hz] at hvj
        rw [hvj] at hvalj
        refine ⟨j, hj6, by omega, ?_, ?_⟩
        · rw [hroot.1]
          exact (Option.some.inj hvalj).symm
        · intro k hk6 hkne
          have := hmin.2 k (List.mem_range.mpr hk6) _ (hvleg k hk6 hkne)
          rw [hroot.1]
          exact this
  | false =>
    simp only [Bool.false_eq_true, if_false] at hroot ⊢
    set rs := rootResults b false d with hrs
    have hv0 : rs.getD i0 none = some (branchScore b false d i0) := by
      rw [hrs, rootResults_getD b false d i0 hi06, if_neg (by omega)]
    have hvleg : ∀ k, k < 6 → 0 < b.getD (rootSel false k) 0 →
        rs.getD k none = some (branchScore b false d k) := by
      intro k hk6 hkne
      rw [hrs, rootResults_getD b false d k hk6, if_neg (by omega)]
    have hmax := aggLoop_max_le rs (List.range 6) (-128, none)
    rcases aggLoop_max_char rs (List.range 6) (-128, none) with
      ⟨heq, hall⟩ | ⟨pre, j, post, hsplit, hvalj, hidx, hlt, hpre⟩
    · have hscore : (aggLoop false rs (List.range 6) (-128, none)).1 = -128 := by
        rw [heq]
      have hge := hall i0 (List.mem_range.mpr hi06) _ hv0
      have hub := (branchScore_bounds b false d i0).1
      refine ⟨i0, hi06, hi0ne, ?_, ?_⟩
      · rw [hroot.1, hscore]
        simp at hge
        omega
      · intro k hk6 hkne
        have := hall k (List.mem_range.mpr hk6) _ (hvleg k hk6 hkne)
        rw [hroot.1, hscore]
        simp at this
        omega
    · have hj6 : j < 6 := by
        have : j ∈ List.range 6 := by rw [hsplit]; simp
        simpa using this
      have hvj := rootResults_getD b false d j hj6
      rw [← hrs] at hvj
      by_cases hz : b.getD (rootSel false j) 0 = 0
      · rw [if_pos hz] at hvj
        rw [hvj] at hvalj
        cases hvalj
      · rw [if_neg hz] at hvj
        rw [hvj] at hvalj
        refine ⟨j, hj6, by omega, ?_, ?_⟩
        · rw [hroot.1]
          exact (Option.some.inj hvalj).symm
        · intro k hk6 hkne
          have := hmax.2 k (List.mem_range.mpr hk6) _ (hvleg k hk6 hkne)
          rw [hroot.1]
          exact this

/-! ## Claims -/

/-- C1: for every board state, side to move and depth, the alpha-beta
search `minimax(state, turn, depth, -128, 127)` returns the same score as
the reference full-width minimax `minimaxRef` (identical terminal handling
and move enumeration, no pruning) at the same depth. -/
theorem claim_C1 (b : Board) (p : Bool) (d : ℕ) :
    (minimax b p d (-128) 127).1 = minimaxRef b p d := by
  have h := minimax_clamp d b p (-128) 127 (by norm_num)
  have h1 := minimax_bounds d b p (-128) 127
  have h2 := minimaxRef_bounds d b p
  unfold clamp at h
  omega

/-- C2 counterexample: the mirror pit the code captures from is
`12 - finalIndex`, not `13 - finalIndex`.  Player sows pit 0 (one stone),
landing in the previously empty pit 1; the pit at `13 - 1 = 12` holds 3
stones, yet no capture happens because the code tests pit `12 - 1 = 11`:
the store stays 0 and pits 1 and 12 keep their stones. -/
theorem claim_C2_cex :
    ([1,0,0,0,0,0,0,0,0,0,0,0,3,0] : Board).getD (13 - 1) 0 = 3 ∧
    move [1,0,0,0,0,0,0,0,0,0,0,0,3,0] 0 true =
      (false, [0,1,0,0,0,0,0,0,0,0,0,0,3,0]) := by decide

/-- C2 (amended: the mirror pit is at index `14 - finalIndex - 2`, i.e.
`12 - finalIndex`, and the mirror count is read after sowing): a valid move
whose final stone lands at `f`, an own playing pit whose count after
sowing is exactly 1, with the mirror pit `14 - f - 2` non-empty, adds
`mirror + 1` to the mover's store, zeroes the landing and mirror pits and
hands the turn to the opponent (stated for boards whose total rules out
`uint8_t` wraparound). -/
theorem claim_C2 (b : Board) (sel : ℕ) (p : Bool) (f : ℕ) (b2 : Board)
    (hlen : b.length = 14) (hsum : b.sum ≤ 255) (hvalid : validMove b sel p)
    (hsowEq : sow (if p = true then 13 else 6) (b.getD sel 0) sel (b.set sel 0) =
      (f, b2))
    (hown : if p = true then f < 6 else 6 < f ∧ f < 13)
    (hone : b2.getD f 0 = 1)
    (hmir : 0 < b2.getD (14 - f - 2) 0) :
    (move b sel p).1 = !p ∧
    (move b sel p).2.getD (if p = true then 6 else 13) 0 =
      b2.getD (if p = true then 6 else 13) 0 + b2.getD (14 - f - 2) 0 + 1 ∧
    (move b sel p).2.getD f 0 = 0 ∧
    (move b sel p).2.getD (14 - f - 2) 0 = 0 :=
  move_capture b sel p f b2 hlen hsum hvalid hsowEq hown hone hmir

/-- C2 witness: player sows pit 0 of `[1,0,0,0,0,0,...,5 at pit 11,...]`,
lands at pit 1, captures the 5 stones of mirror pit 11 plus the landing
stone. -/
theorem claim_C2_witness :
    (validMove [1,0,0,0,0,0,0,0,0,0,0,5,0,0] 0 true ∧
      sow (if (true : Bool) = true then 13 else 6)
        (([1,0,0,0,0,0,0,0,0,0,0,5,0,0] : Board).getD 0 0) 0
        (([1,0,0,0,0,0,0,0,0,0,0,5,0,0] : Board).set 0 0) =
        (1, [0,1,0,0,0,0,0,0,0,0,0,5,0,0])) ∧
    ((move [1,0,0,0,0,0,0,0,0,0,0,5,0,0] 0 true).1 = !true ∧
      (move [1,0,0,0,0,0,0,0,0,0,0,5,0,0] 0 true).2.getD
          (if (true : Bool) = true then 6 else 13) 0 =
        ([0,1,0,0,0,0,0,0,0,0,0,5,0,0] : Board).getD
          (if (true : Bool) = true then 6 else 13) 0 +
        ([0,1,0,0,0,0,0,0,0,0,0,5,0,0] : Board).getD (14 - 1 - 2) 0 + 1 ∧
      (move [1,0,0,0,0,0,0,0,0,0,0,5,0,0] 0 true).2.getD 1 0 = 0 ∧
      (move [1,0,0,0,0,0,0,0,0,0,0,5,0,0] 0 true).2.getD (14 - 1 - 2) 0 = 0) :=
  ⟨⟨by decide, by decide⟩,
    claim_C2 [1,0,0,0,0,0,0,0,0,0,0,5,0,0] 0 true 1 [0,1,0,0,0,0,0,0,0,0,0,5,0,0]
      (by decide) (by decide) (by decide) (by decide) (by decide) (by decide)
      (by decide)⟩

/-- C3 counterexample: on a `uint8_t` board the 14 counters can wrap:
moving the single stone of pit 0 onto pit 1 holding 255 stones makes that
cell wrap to 0, so the total drops from 256 to 0. -/
theorem claim_C3_cex :
    validMove [1,255,0,0,0,0,0,0,0,0,0,0,0,0] 0 true ∧
    ([1,255,0,0,0,0,0,0,0,0,0,0,0,0] : Board).sum = 256 ∧
    (move [1,255,0,0,0,0,0,0,0,0,0,0,0,0] 0 true).2.sum = 0 := by decide

/-- C3 (amended: conservation holds for every valid move on boards whose
total is at most 255, so that no `uint8_t` counter can wrap): the sum of
all 14 counters is unchanged by `move`, captures and extra turns
included. -/
theorem claim_C3 (b : Board) (sel : ℕ) (p : Bool) (hlen : b.length = 14)
    (hsum : b.sum ≤ 255) (hv : validMove b sel p) :
    (move b sel p).2.sum = b.sum := by
  apply move_sum b sel p hlen hsum
  rcases hv with ⟨hr, _⟩
  cases p <;> simp at hr <;> omega

/-- C3 witness: a capture move from the opening-like position
`[1,0,0,0,0,0,0,0,0,0,0,5,0,0]` and a plain move from the start position
both conserve the 48-stone total. -/
theorem claim_C3_witness :
    (([4,4,4,4,4,4,0,4,4,4,4,4,4,0] : Board).length = 14 ∧
      ([4,4,4,4,4,4,0,4,4,4,4,4,4,0] : Board).sum ≤ 255 ∧
      validMove [4,4,4,4,4,4,0,4,4,4,4,4,4,0] 2 true) ∧
    (move [4,4,4,4,4,4,0,4,4,4,4,4,4,0] 2 true).2.sum =
      ([4,4,4,4,4,4,0,4,4,4,4,4,4,0] : Board).sum :=
  ⟨⟨by decide, by decide, by decide⟩,
    claim_C3 [4,4,4,4,4,4,0,4,4,4,4,4,4,0] 2 true (by decide) (by decide) (by decide)⟩

/-- C4 counterexample: `move` never fails and never rejects: told to play
the opponent's pit 7 from the start position, it silently sows it (the
claim says such a call is rejected with the board left unchanged). -/
theorem claim_C4_cex :
    (move [4,4,4,4,4,4,0,4,4,4,4,4,4,0] 7 true).2 =
      [4,4,4,4,4,4,0,0,5,5,5,5,4,0] ∧
    (move [4,4,4,4,4,4,0,4,4,4,4,4,4,0] 7 true).2 ≠
      [4,4,4,4,4,4,0,4,4,4,4,4,4,0] := by decide

/-- C4 (amended): the core `move` performs no validation and cannot fail:
on an empty selected cell it leaves the board unchanged while still
reporting the next turn; out-of-range pits are silently sown.  The only
input rejection lives in the human-agent path of `Agent::Move`, which
applies no move when the typed index is not below 6 or the mapped pit is
empty. -/
theorem claim_C4 (b : Board) (sel : ℕ) (p : Bool) (turn : Bool) (im : ℕ) :
    (b.getD sel 0 = 0 →
      (move b sel p).2 = b ∧
      (move b sel p).1 = (if p = true then (if sel = 6 then true else false)
        else (if sel = 13 then false else true))) ∧
    (¬ (im < 6 ∧ 0 < b.getD (if turn then im else 12 - im) 0) →
      agentHumanMove b turn im = none) := by
  constructor
  · intro hz
    exact move_emptyPit b sel p hz
  · intro h
    simp only [agentHumanMove, if_neg h]

/-- C4 witness: playing the empty pit 0 leaves the board unchanged, and the
human-agent path rejects the out-of-range input 9. -/
theorem claim_C4_witness :
    (([0,4,4,4,4,4,0,4,4,4,4,4,4,0] : Board).getD 0 0 = 0 ∧
      (move [0,4,4,4,4,4,0,4,4,4,4,4,4,0] 0 true).2 =
        [0,4,4,4,4,4,0,4,4,4,4,4,4,0]) ∧
    (¬ ((9 : ℕ) < 6 ∧
        0 < ([4,4,4,4,4,4,0,4,4,4,4,4,4,0] : Board).getD
          (if (true : Bool) then 9 else 12 - 9) 0) ∧
      agentHumanMove [4,4,4,4,4,4,0,4,4,4,4,4,4,0] true 9 = none) :=
  ⟨⟨by decide,
      ((claim_C4 [0,4,4,4,4,4,0,4,4,4,4,4,4,0] 0 true true 9).1 (by decide)).1⟩,
    ⟨by decide,
      (claim_C4 [4,4,4,4,4,4,0,4,4,4,4,4,4,0] 0 true true 9).2 (by decide)⟩⟩

/-- C5 counterexample: the terminal sweep of `minimax` does not zero the
swept pits and does not conserve the total: with Side-A empty, pit 7 keeps
its stone while store 13 also receives it, so the 6-stone board becomes a
7-stone board. -/
theorem claim_C5_cex :
    playerEmpty [0,0,0,0,0,0,3,1,0,0,0,0,0,2] = true ∧
    (minimax [0,0,0,0,0,0,3,1,0,0,0,0,0,2] true 1 (-128) 127).2.getD 7 0 = 1 ∧
    ([0,0,0,0,0,0,3,1,0,0,0,0,0,2] : Board).sum = 6 ∧
    (minimax [0,0,0,0,0,0,3,1,0,0,0,0,0,2] true 1 (-128) 127).2.sum = 7 := by decide

/-- C5 (amended): when all of Side-A's pits are empty, `minimax` adds every
stone of Side-B's pits into Side-B's store (mod 256) WITHOUT zeroing those
pits — the internal swept state does not conserve the total, but it is
local to the search — and returns the evaluation of that updated state;
symmetrically when Side-B's pits are empty (checked second). -/
theorem claim_C5 (b : Board) (p : Bool) (d : ℕ) (alpha beta : ℤ)
    (hlen : b.length = 14) :
    (playerEmpty b = true →
      (minimax b p d alpha beta).1 =
        i8 ((((b.getD 13 0 + b.getD 7 0 + b.getD 8 0 + b.getD 9 0 +
          b.getD 10 0 + b.getD 11 0 + b.getD 12 0) % 256 : ℕ) : ℤ) -
          (b.getD 6 0 : ℤ)) ∧
      (∀ j, j ≠ 13 → (minimax b p d alpha beta).2.getD j 0 = b.getD j 0) ∧
      (minimax b p d alpha beta).2.getD 13 0 =
        (b.getD 13 0 + b.getD 7 0 + b.getD 8 0 + b.getD 9 0 +
          b.getD 10 0 + b.getD 11 0 + b.getD 12 0) % 256) ∧
    (playerEmpty b = false → computerEmpty b = true →
      (minimax b p d alpha beta).1 =
        i8 ((b.getD 13 0 : ℤ) -
          (((b.getD 6 0 + b.getD 0 0 + b.getD 1 0 + b.getD 2 0 +
            b.getD 3 0 + b.getD 4 0 + b.getD 5 0) % 256 : ℕ) : ℤ)) ∧
      (∀ j, j ≠ 6 → (minimax b p d alpha beta).2.getD j 0 = b.getD j 0) ∧
      (minimax b p d alpha beta).2.getD 6 0 =
        (b.getD 6 0 + b.getD 0 0 + b.getD 1 0 + b.getD 2 0 +
          b.getD 3 0 + b.getD 4 0 + b.getD 5 0) % 256) := by
  constructor
  · intro hpe
    rw [minimax_playerEmpty b p d alpha beta hpe]
    refine ⟨?_, ?_, ?_⟩
    · simp only [Evaluation]
      rw [sweepIntoComputer_store b hlen, sweepIntoComputer_pits b 6 (by omega)]
    · intro j hj
      exact sweepIntoComputer_pits b j hj
    · exact sweepIntoComputer_store b hlen
  · intro hpe hce
    rw [minimax_computerEmpty b p d alpha beta hpe hce]
    refine ⟨?_, ?_, ?_⟩
    · simp only [Evaluation]
      rw [sweepIntoPlayer_store b hlen, sweepIntoPlayer_pits b 13 (by omega)]
    · intro j hj
      exact sweepIntoPlayer_pits b j hj
    · exact sweepIntoPlayer_store b hlen

/-- C5 witness: on `[0,0,0,0,0,0,3,1,0,0,0,0,0,2]` the Side-A-empty sweep
yields score `i8(3 - 3) = 0`, leaves pit 7 at its old count and puts
`2 + 1 = 3` in store 13. -/
theorem claim_C5_witness :
    (([0,0,0,0,0,0,3,1,0,0,0,0,0,2] : Board).length = 14 ∧
      playerEmpty [0,0,0,0,0,0,3,1,0,0,0,0,0,2] = true) ∧
    ((minimax [0,0,0,0,0,0,3,1,0,0,0,0,0,2] true 1 (-128) 127).1 =
      i8 ((((([0,0,0,0,0,0,3,1,0,0,0,0,0,2] : Board).getD 13 0 +
        ([0,0,0,0,0,0,3,1,0,0,0,0,0,2] : Board).getD 7 0 +
        ([0,0,0,0,0,0,3,1,0,0,0,0,0,2] : Board).getD 8 0 +
        ([0,0,0,0,0,0,3,1,0,0,0,0,0,2] : Board).getD 9 0 +
        ([0,0,0,0,0,0,3,1,0,0,0,0,0,2] : Board).getD 10 0 +
        ([0,0,0,0,0,0,3,1,0,0,0,0,0,2] : Board).getD 11 0 +
        ([0,0,0,0,0,0,3,1,0,0,0,0,0,2] : Board).getD 12 0) % 256 : ℕ) : ℤ) -
        (([0,0,0,0,0,0,3,1,0,0,0,0,0,2] : Board).getD 6 0 : ℤ)) ∧
      (∀ j, j ≠ 13 →
        (minimax [0,0,0,0,0,0,3,1,0,0,0,0,0,2] true 1 (-128) 127).2.getD j 0 =
        ([0,0,0,0,0,0,3,1,0,0,0,0,0,2] : Board).getD j 0) ∧
      (minimax [0,0,0,0,0,0,3,1,0,0,0,0,0,2] true 1 (-128) 127).2.getD 13 0 =
        (([0,0,0,0,0,0,3,1,0,0,0,0,0,2] : Board).getD 13 0 +
        ([0,0,0,0,0,0,3,1,0,0,0,0,0,2] : Board).getD 7 0 +
        ([0,0,0,0,0,0,3,1,0,0,0,0,0,2] : Board).getD 8 0 +
        ([0,0,0,0,0,0,3,1,0,0,0,0,0,2] : Board).getD 9 0 +
        ([0,0,0,0,0,0,3,1,0,0,0,0,0,2] : Board).getD 10 0 +
        ([0,0,0,0,0,0,3,1,0,0,0,0,0,2] : Board).getD 11 0 +
        ([0,0,0,0,0,0,3,1,0,0,0,0,0,2] : Board).getD 12 0) % 256) :=
  ⟨⟨by decide, by decide⟩,
    (claim_C5 [0,0,0,0,0,0,3,1,0,0,0,0,0,2] true 1 (-128) 127
      (by decide)).1 (by decide)⟩

/-- C6 counterexample: `bestMove` at depth 0 is NOT the immediate
evaluation after one move: the `uint8_t` subtraction `depth - 1` in the
thread call wraps 0 to 255, so the chosen branch is searched 255 plies
deep.  Here the post-move evaluation is 0 but the depth-0 root returns the
deep value -1. -/
theorem claim_C6_cex :
    (minimaxRoot [2,0,0,0,0,0,0,0,0,0,0,0,1,0] true 0).1 = -1 ∧
    Evaluation (move [2,0,0,0,0,0,0,0,0,0,0,0,1,0] 0 true).2 = 0 ∧
    u8sub1 0 = 255 := by decide

/-- C6 (amended: the immediate-evaluation behaviour belongs to depth 1, not
depth 0, because `depth - 1` underflows on `uint8_t` at 0): with at least
one legal move, `minimaxRoot` at depth 1 returns the extremal immediate
static evaluation (terminal sweep included) over the mover's legal first
moves — a single ply, no deeper search. -/
theorem claim_C6 (b : Board) (p : Bool)
    (hne : ∃ i, i < 6 ∧ 0 < b.getD (rootSel p i) 0) :
    ∃ j, j < 6 ∧ 0 < b.getD (rootSel p j) 0 ∧
      (minimaxRoot b p 1).1 = immediateEval (move b (rootSel p j) p).2 ∧
      ∀ k, k < 6 → 0 < b.getD (rootSel p k) 0 →
        (if p = true then
          (minimaxRoot b p 1).1 ≤ immediateEval (move b (rootSel p k) p).2
         else
          immediateEval (move b (rootSel p k) p).2 ≤ (minimaxRoot b p 1).1) := by
  obtain ⟨j, hj6, hjne, hsc, hext⟩ := minimaxRoot_extremal b p 1 hne
  refine ⟨j, hj6, hjne, ?_, ?_⟩
  · rw [hsc, branchScore_one]
  · intro k hk6 hkne
    have h := hext k hk6 hkne
    rw [← branchScore_one b p k]
    exact h

/-- C6 witness: from the start position the player's depth-1 root score is
an extremal one-ply evaluation. -/
theorem claim_C6_witness :
    ((0 : ℕ) < 6 ∧
      0 < ([4,4,4,4,4,4,0,4,4,4,4,4,4,0] : Board).getD (rootSel true 0) 0) ∧
    (∃ j, j < 6 ∧
      0 < ([4,4,4,4,4,4,0,4,4,4,4,4,4,0] : Board).getD (rootSel true j) 0 ∧
      (minimaxRoot [4,4,4,4,4,4,0,4,4,4,4,4,4,0] true 1).1 =
        immediateEval (move [4,4,4,4,4,4,0,4,4,4,4,4,4,0] (rootSel true j) true).2 ∧
      ∀ k, k < 6 → 0 < ([4,4,4,4,4,4,0,4,4,4,4,4,4,0] : Board).getD (rootSel true k) 0 →
        (if true = true then
          (minimaxRoot [4,4,4,4,4,4,0,4,4,4,4,4,4,0] true 1).1 ≤
            immediateEval (move [4,4,4,4,4,4,0,4,4,4,4,4,4,0] (rootSel true k) true).2
         else
          immediateEval (move [4,4,4,4,4,4,0,4,4,4,4,4,4,0] (rootSel true k) true).2 ≤
            (minimaxRoot [4,4,4,4,4,4,0,4,4,4,4,4,4,0] true 1).1)) :=
  ⟨⟨by decide, by decide⟩,
    claim_C6 [4,4,4,4,4,4,0,4,4,4,4,4,4,0] true ⟨0, by decide, by decide⟩⟩

/-- C7 counterexample: pit 1 is the only legal pit and hence the
lowest-indexed pit achieving the extremal branch score, but its branch
scores exactly the sentinel 127 (`128 - 1` after the sweep), so the strict
comparison never fires and `bestIndex` is never assigned (`none`), instead
of pit 1 being returned. -/
theorem claim_C7_cex :
    0 < ([0,1,0,0,0,0,0,0,0,0,0,0,0,128] : Board).getD (rootSel true 1) 0 ∧
    branchScore [0,1,0,0,0,0,0,0,0,0,0,0,0,128] true 1 1 = 127 ∧
    (minimaxRoot [0,1,0,0,0,0,0,0,0,0,0,0,0,128] true 1).2.1 = none := by decide

/-- C7 (amended: provided some legal branch beats the sentinel — scores
below 127 for the minimizing side, above -128 for the maximizing side —
which always holds in ordinary play): `bestMove` returns the
lowest-indexed legal pit achieving the extremal branch score (the minimum
for the mover Side-A, the maximum for Side-B); every earlier legal pit
scores strictly worse.  The result is a pure function of the inputs, hence
identical across repeated runs: aggregation happens only after the join,
in ascending slot order. -/
theorem claim_C7 (b : Board) (p : Bool) (d : ℕ)
    (hbeats : ∃ i, i < 6 ∧ 0 < b.getD (rootSel p i) 0 ∧
      (if p = true then branchScore b p d i < 127
       else -128 < branchScore b p d i)) :
    ∃ j, j < 6 ∧ 0 < b.getD (rootSel p j) 0 ∧
      (minimaxRoot b p d).2.1 = some (rootSel p j) ∧
      (minimaxRoot b p d).1 = branchScore b p d j ∧
      (∀ k, k < 6 → 0 < b.getD (rootSel p k) 0 →
        (if p = true then (minimaxRoot b p d).1 ≤ branchScore b p d k
         else branchScore b p d k ≤ (minimaxRoot b p d).1)) ∧
      (∀ k, k < j → 0 < b.getD (rootSel p k) 0 →
        (if p = true then (minimaxRoot b p d).1 < branchScore b p d k
         else branchScore b p d k < (minimaxRoot b p d).1)) :=
  minimaxRoot_spec b p d hbeats

/-- C7 witness: the start position at depth 1 for the minimizing side. -/
theorem claim_C7_witness :
    ((0 : ℕ) < 6 ∧
      0 < ([4,4,4,4,4,4,0,4,4,4,4,4,4,0] : Board).getD (rootSel true 0) 0 ∧
      branchScore [4,4,4,4,4,4,0,4,4,4,4,4,4,0] true 1 0 < 127) ∧
    (∃ j, j < 6 ∧
      0 < ([4,4,4,4,4,4,0,4,4,4,4,4,4,0] : Board).getD (rootSel true j) 0 ∧
      (minimaxRoot [4,4,4,4,4,4,0,4,4,4,4,4,4,0] true 1).2.1 =
        some (rootSel true j) ∧
      (minimaxRoot [4,4,4,4,4,4,0,4,4,4,4,4,4,0] true 1).1 =
        branchScore [4,4,4,4,4,4,0,4,4,4,4,4,4,0] true 1 j ∧
      (∀ k, k < 6 →
        0 < ([4,4,4,4,4,4,0,4,4,4,4,4,4,0] : Board).getD (rootSel true k) 0 →
        (if true = true then
          (minimaxRoot [4,4,4,4,4,4,0,4,4,4,4,4,4,0] true 1).1 ≤
            branchScore [4,4,4,4,4,4,0,4,4,4,4,4,4,0] true 1 k
         else
          branchScore [4,4,4,4,4,4,0,4,4,4,4,4,4,0] true 1 k ≤
            (minimaxRoot [4,4,4,4,4,4,0,4,4,4,4,4,4,0] true 1).1)) ∧
      (∀ k, k < j →
        0 < ([4,4,4,4,4,4,0,4,4,4,4,4,4,0] : Board).getD (rootSel true k) 0 →
        (if true = true then
          (minimaxRoot [4,4,4,4,4,4,0,4,4,4,4,4,4,0] true 1).1 <
            branchScore [4,4,4,4,4,4,0,4,4,4,4,4,4,0] true 1 k
         else
          branchScore [4,4,4,4,4,4,0,4,4,4,4,4,4,0] true 1 k <
            (minimaxRoot [4,4,4,4,4,4,0,4,4,4,4,4,4,0] true 1).1))) :=
  ⟨⟨by decide, by decide, by decide⟩,
    claim_C7 [4,4,4,4,4,4,0,4,4,4,4,4,4,0] true 1 ⟨0, by decide, by decide, by decide⟩⟩

/-- C8: `minimaxRoot` leaves the caller's 14-counter array unchanged, and
so does every per-pit thread call: the threads memcpy the position and
mutate only their private copies (the recursive `minimax` itself DOES
mutate the board it is handed in its sweep branches, which is why the
copies matter). -/
theorem claim_C8 (b : Board) (p : Bool) (d : ℕ) :
    (minimaxRoot b p d).2.2 = b ∧
    ∀ sel, (minimaxThreadCall b sel p d).2 = b :=
  ⟨rfl, fun _ => rfl⟩

/-- C9 counterexample: a 200-stone configuration exceeds the `int8_t`
score range; `Environment::start` prints the overflow warning but then
proceeds into the game loop with that very board — nothing is rejected. -/
theorem claim_C9_cex :
    (startPreamble [200,0,0,0,0,0,0,0,0,0,0,0,0,0]).1 = true ∧
    (startPreamble [200,0,0,0,0,0,0,0,0,0,0,0,0,0]).2 =
      some [200,0,0,0,0,0,0,0,0,0,0,0,0,0] := by decide

/-- C9 (amended): `Environment::start` detects a total above 127 and
prints a warning, but it never rejects the configuration: the game loop
always proceeds with the unchanged board. -/
theorem claim_C9 (b : Board) :
    ((startPreamble b).1 = true ↔ 127 < b.sum) ∧
    (startPreamble b).2 = some b := by
  refine ⟨?_, rfl⟩
  simp [startPreamble]

/-- C10 counterexample: side A to move with non-empty pit 0, yet
`bestIndex` is never assigned: pit 0's branch scores exactly the sentinel
127, so the strict comparison `r < 127` fails and the scan ends with the
uninitialised index (modelled `none`). -/
theorem claim_C10_cex :
    0 < ([1,0,0,0,0,0,0,0,0,0,0,0,0,128] : Board).getD (rootSel true 0) 0 ∧
    (minimaxRoot [1,0,0,0,0,0,0,0,0,0,0,0,0,128] true 1).2.1 = none := by decide

/-- C10 (amended: the non-empty-pit precondition is NOT sufficient —
additionally some legal branch must beat the sentinel, i.e. score below
127 for the minimizing side or above -128 for the maximizing side):
under that condition `minimaxRoot` returns the index of one of the
mover's pits that was non-empty in the input; with no legal pit at all
the index variable is never assigned (modelled `none`). -/
theorem claim_C10 (b : Board) (p : Bool) (d : ℕ) :
    ((∃ i, i < 6 ∧ 0 < b.getD (rootSel p i) 0 ∧
        (if p = true then branchScore b p d i < 127
         else -128 < branchScore b p d i)) →
      ∃ j, j < 6 ∧ 0 < b.getD (rootSel p j) 0 ∧
        (minimaxRoot b p d).2.1 = some (rootSel p j)) ∧
    ((∀ i, i < 6 → b.getD (rootSel p i) 0 = 0) →
      (minimaxRoot b p d).2.1 = none) := by
  constructor
  · intro h
    obtain ⟨j, hj6, hjne, hidx, -, -, -⟩ := minimaxRoot_spec b p d h
    exact ⟨j, hj6, hjne, hidx⟩
  · exact minimaxRoot_none b p d

/-- C10 witness: from the start position the returned index is a non-empty
own pit; with all six own pits empty the index is `none`. -/
theorem claim_C10_witness :
    ((0 : ℕ) < 6 ∧
      0 < ([4,4,4,4,4,4,0,4,4,4,4,4,4,0] : Board).getD (rootSel true 0) 0 ∧
      branchScore [4,4,4,4,4,4,0,4,4,4,4,4,4,0] true 1 0 < 127) ∧
    (∃ j, j < 6 ∧
      0 < ([4,4,4,4,4,4,0,4,4,4,4,4,4,0] : Board).getD (rootSel true j) 0 ∧
      (minimaxRoot [4,4,4,4,4,4,0,4,4,4,4,4,4,0] true 1).2.1 =
        some (rootSel true j)) ∧
    ((∀ i, i < 6 →
        ([0,0,0,0,0,0,5,1,1,1,1,1,1,5] : Board).getD (rootSel true i) 0 = 0) ∧
      (minimaxRoot [0,0,0,0,0,0,5,1,1,1,1,1,1,5] true 3).2.1 = none) :=
  ⟨⟨by decide, by decide, by decide⟩,
    (claim_C10 [4,4,4,4,4,4,0,4,4,4,4,4,4,0] true 1).1
      ⟨0, by decide, by decide, by decide⟩,
    ⟨by decide,
      (claim_C10 [0,0,0,0,0,0,5,1,1,1,1,1,1,5] true 3).2 (by decide)⟩⟩
